import Mathlib

/-!
# Verification of the EDA summary generator (`scripts/generate_eda_excel.py`)

A shallow embedding, in Lean 4, of the aggregation-and-analysis core of the
EDA report generator: overview metrics, descriptive statistics, the
missing-value profiler, the categorical distribution profiler, the rule
analyzer, the fraud-type profiler and the correlation ranker.

Modelling conventions, used throughout:

* A dataset (`DFrame`) is a column list, the sub-list of numeric columns
  (pandas dtype metadata, as reported by `select_dtypes`), and a list of
  rows; a row is an association list from column name to `Val`
  (`null`, a rational number, or a string).  IEEE doubles are idealized as
  exact rationals; every concrete value appearing in the theorems below is
  exactly representable, so the idealization is lossless there.
* A float `NaN` produced by an empty mean, a zero-variance correlation or a
  guarded division is modelled by `Option ℚ` (`none` = NaN); full float
  division (which can also produce infinities) is modelled by `PyF`.
* pandas reductions (`mean`, `sum`, `count`) skip nulls, as in the source.
* `list.sort` in Python is Timsort, which is stable also under
  `reverse=True`; it is modelled by the stable insertion sort `sortDesc`.
  `pandas.sort_values` defaults to numpy's *unstable* introsort
  (`npysort/quicksort.c.src`); where a claim depends on its tie behaviour
  (the missing-value sheet) that algorithm is modelled faithfully by
  `aquicksortIdx` below, and where no claim touches tie order (the
  correlation and categorical sheets) the stable sort stands in for it.
* A Pearson coefficient `r = cov/√(vx·vy)` is irrational in general; it is
  represented exactly by the triple `(cov, vx, vy)`:  `r` is defined iff
  `0 < vx` and `0 < vy`, `r > 0` iff `cov > 0`, and `|r| ≤ t` iff
  `cov² ≤ t²·vx·vy`.  The squared absolute value `rSq = cov²/(vx·vy)`
  drives the (order-isomorphic) sort key and the threshold buckets.
-/

/- Batteries marks the `Rat` field operations `@[irreducible]`; concrete
tables in the witnesses below are evaluated by `decide`, whose reduction
needs to see through them. -/
attribute [local semireducible] Rat.add Rat.mul Rat.sub Rat.inv Rat.ofScientific

/-- A cell value of the in-memory dataset: missing, numeric, or string. -/
inductive Val where
  | null : Val
  | num (q : ℚ) : Val
  | str (s : String) : Val
deriving DecidableEq, Repr

/-- The in-memory tabular dataset handed to the report generator.
`numericCols` is the dtype metadata that `select_dtypes(include=[np.number])`
reads; the rows of a numeric column hold only `null` or `num` values. -/
structure DFrame where
  cols : List String
  numericCols : List String
  rows : List (List (String × Val))
deriving DecidableEq, Repr

/-- Column access on a row (`row[c]`). -/
def getV (r : List (String × Val)) (c : String) : Val :=
  match r.lookup c with
  | some v => v
  | none => Val.null

/-- Numeric view of a cell; `none` for a null (or non-numeric) cell. -/
def Val.toNum? : Val → Option ℚ
  | .num q => some q
  | _ => none

/-- The non-null numeric values of column `c` over a row subset
(pandas reductions skip NaN). -/
def numsOf (rows : List (List (String × Val))) (c : String) : List ℚ :=
  rows.filterMap (fun r => (getV r c).toNum?)

/-- `Series.mean()` over a row subset: `none` models the NaN returned on an
all-null (or empty) selection. -/
def meanOf (rows : List (List (String × Val))) (c : String) : Option ℚ :=
  let xs := numsOf rows c
  if xs.isEmpty then none else some (xs.sum / xs.length)

/-- `df[c].mean()`. -/
def colMean (df : DFrame) (c : String) : Option ℚ :=
  meanOf df.rows c

/-- `df[c].sum()` (pandas skips nulls; the sum of an empty selection is 0). -/
def colSum (df : DFrame) (c : String) : ℚ :=
  (numsOf df.rows c).sum

/-- `df[c].isnull().sum()`: the null count of a column. -/
def nullCount (df : DFrame) (c : String) : ℕ :=
  (df.rows.filter (fun r => getV r c = Val.null)).length

/-- The dataset's `label` column is the binary fraud ground truth
(`label = 0 if fraud_type == 'normal' else 1` per the data dictionary). -/
def BinaryLabel (df : DFrame) : Prop :=
  ∀ r ∈ df.rows, getV r "label" = Val.num 0 ∨ getV r "label" = Val.num 1

instance (df : DFrame) : Decidable (BinaryLabel df) := by
  unfold BinaryLabel; infer_instance

/-! ## A stable sort-by-key

`sortDesc key` is the stable descending insertion sort: an element is placed
before the first already-placed element whose key is `≤` its own, so
elements with equal keys keep their input order.  This is the behaviour of
Python's `list.sort(key=…, reverse=True)` (Timsort; the documentation
guarantees that `reverse=True` keeps the sort stable), and of
`sort_values(ascending=False)` whenever a stable kind is in effect. -/

def insDesc {α : Type} {κ : Type} [LinearOrder κ] (key : α → κ) (x : α) :
    List α → List α
  | [] => [x]
  | y :: ys => if key y ≤ key x then x :: y :: ys else y :: insDesc key x ys

def sortDesc {α : Type} {κ : Type} [LinearOrder κ] (key : α → κ) :
    List α → List α
  | [] => []
  | x :: xs => insDesc key x (sortDesc key xs)

theorem perm_insDesc {α κ : Type} [LinearOrder κ] (key : α → κ) (x : α)
    (l : List α) : List.Perm (insDesc key x l) (x :: l) := by
  induction l with
  | nil => simp [insDesc]
  | cons y ys ih =>
      by_cases h : key y ≤ key x
      · simp [insDesc, h]
      · simp only [insDesc, if_neg h]
        exact (List.Perm.cons y ih).trans (List.Perm.swap x y ys)

theorem perm_sortDesc {α κ : Type} [LinearOrder κ] (key : α → κ)
    (l : List α) : List.Perm (sortDesc key l) l := by
  induction l with
  | nil => simp [sortDesc]
  | cons x xs ih =>
      exact (perm_insDesc key x (sortDesc key xs)).trans (List.Perm.cons x ih)

theorem mem_insDesc {α κ : Type} [LinearOrder κ] (key : α → κ) (x a : α)
    (l : List α) : a ∈ insDesc key x l ↔ a = x ∨ a ∈ l := by
  rw [(perm_insDesc key x l).mem_iff]; simp

theorem pairwise_insDesc {α κ : Type} [LinearOrder κ] (key : α → κ) (x : α)
    {l : List α} (h : l.Pairwise (fun a b => key b ≤ key a)) :
    (insDesc key x l).Pairwise (fun a b => key b ≤ key a) := by
  induction l with
  | nil => simp [insDesc]
  | cons y ys ih =>
      rcases List.pairwise_cons.mp h with ⟨hy, hys⟩
      by_cases hxy : key y ≤ key x
      · simp only [insDesc, if_pos hxy]
        refine List.pairwise_cons.mpr ⟨?_, h⟩
        intro b hb
        rcases List.mem_cons.mp hb with rfl | hb
        · exact hxy
        · exact (hy b hb).trans hxy
      · simp only [insDesc, if_neg hxy]
        refine List.pairwise_cons.mpr ⟨?_, ih hys⟩
        intro b hb
        rcases (mem_insDesc key x b ys).mp hb with rfl | hb
        · exact (not_le.mp hxy).le
        · exact hy b hb

theorem pairwise_sortDesc {α κ : Type} [LinearOrder κ] (key : α → κ)
    (l : List α) : (sortDesc key l).Pairwise (fun a b => key b ≤ key a) := by
  induction l with
  | nil => simp [sortDesc]
  | cons x xs ih => exact pairwise_insDesc key x ih

theorem filter_insDesc {α κ : Type} [LinearOrder κ] [DecidableEq κ]
    (key : α → κ) (k : κ) (x : α) (l : List α) :
    (insDesc key x l).filter (fun a => key a = k) =
      if key x = k then x :: l.filter (fun a => key a = k)
      else l.filter (fun a => key a = k) := by
  induction l with
  | nil => by_cases h : key x = k <;> simp [insDesc, h]
  | cons y ys ih =>
      by_cases hxy : key y ≤ key x
      · simp only [insDesc, if_pos hxy]
        by_cases h : key x = k <;> simp [List.filter, h]
      · simp only [insDesc, if_neg hxy]
        have hlt : key x < key y := not_le.mp hxy
        by_cases hyk : key y = k
        · have hxk : key x ≠ k := by rw [← hyk]; exact ne_of_lt hlt
          simp [List.filter, hyk, hxk, ih]
        · by_cases hxk : key x = k <;> simp [List.filter, hyk, hxk, ih]

theorem filter_sortDesc {α κ : Type} [LinearOrder κ] [DecidableEq κ]
    (key : α → κ) (k : κ) (l : List α) :
    (sortDesc key l).filter (fun a => key a = k) =
      l.filter (fun a => key a = k) := by
  induction l with
  | nil => simp [sortDesc]
  | cons x xs ih =>
      rw [sortDesc, filter_insDesc]
      by_cases h : key x = k <;> simp [h, ih, List.filter]

/-- The stable ascending insertion sort, as the descending sort on the dual
order.  On ties it keeps input order; this is the net effect of numpy's
in-place insertion sort (`npysort`), which shifts only while strictly
greater. -/
def sortAsc {α : Type} {κ : Type} [LinearOrder κ] (key : α → κ)
    (l : List α) : List α :=
  sortDesc (fun a => OrderDual.toDual (key a)) l

theorem perm_sortAsc {α κ : Type} [LinearOrder κ] (key : α → κ)
    (l : List α) : List.Perm (sortAsc key l) l :=
  perm_sortDesc _ l

theorem pairwise_sortAsc {α κ : Type} [LinearOrder κ] (key : α → κ)
    (l : List α) : (sortAsc key l).Pairwise (fun a b => key a ≤ key b) :=
  pairwise_sortDesc (fun a => OrderDual.toDual (key a)) l

theorem filter_sortAsc {α κ : Type} [LinearOrder κ] [DecidableEq κ]
    (key : α → κ) (k : κ) (l : List α) :
    (sortAsc key l).filter (fun a => key a = k) =
      l.filter (fun a => key a = k) := by
  have h := filter_sortDesc (fun a => OrderDual.toDual (key a))
    (OrderDual.toDual k) l
  simpa [sortAsc] using h

/-! ## Numeric formatting

Python's `round`, numpy's `.round` and `format(x, '.2f')` all round half to
even.  The dataset values reaching the formatted cells proven about below
are exactly representable decimals, so the rational model is exact. -/

/-- Round half to even, to an integer. -/
def roundHE (q : ℚ) : ℤ :=
  let f := ⌊q⌋
  let r := q - (f : ℚ)
  if r < 1/2 then f
  else if 1/2 < r then f + 1
  else if f % 2 = 0 then f else f + 1

/-- `x.round(d)` / `round(x, d)`. -/
def roundTo (d : ℕ) (q : ℚ) : ℚ :=
  (roundHE (q * (10 ^ d : ℕ)) : ℚ) / (10 ^ d : ℕ)

/-- Left-pad a digit string with zeros to width `w`. -/
def padZ (w : ℕ) (s : String) : String :=
  (List.replicate (w - s.length) '0').asString ++ s

/-- `f"{q:.df}"`: fixed-point formatting with `d` decimals. -/
def fmtFixed (d : ℕ) (q : ℚ) : String :=
  let n := roundHE (q * (10 ^ d : ℕ))
  let sign := if n < 0 then "-" else ""
  let a := n.natAbs
  if d = 0 then sign ++ toString a
  else sign ++ toString (a / 10 ^ d) ++ "." ++ padZ d (toString (a % 10 ^ d))

/-- Python's `str()` of a float that is an exact two-decimal value `n/100`
(as produced by `.round(2)`): the shortest decimal with at least one
fractional digit, e.g. `60 ↦ "60.0"`, `33.3 ↦ "33.3"`, `33.33 ↦ "33.33"`. -/
def strFloat2 (q : ℚ) : String :=
  let n := roundHE (q * 100)
  let sign := if n < 0 then "-" else ""
  let a := n.natAbs
  if a % 100 = 0 then sign ++ toString (a / 100) ++ ".0"
  else if a % 10 = 0 then sign ++ toString (a / 100) ++ "." ++ toString (a % 100 / 10)
  else sign ++ toString (a / 100) ++ "." ++ padZ 2 (toString (a % 100))

/-! ## Python float semantics for unguarded divisions

The fraud-type sheet divides numpy scalars with no zero guard; numpy emits a
warning (suppressed by `warnings.filterwarnings("ignore")`) and yields
`inf`/`-inf`/`nan` rather than raising.  `PyF` models those outcomes. -/

inductive PyF where
  | fin (q : ℚ) : PyF
  | pinf : PyF
  | ninf : PyF
  | nan : PyF
deriving DecidableEq, Repr

/-- Float division, with the numpy zero-division and NaN rules. -/
def PyF.div : PyF → PyF → PyF
  | .nan, _ => .nan
  | _, .nan => .nan
  | .fin a, .fin b =>
      if b ≠ 0 then .fin (a / b)
      else if 0 < a then .pinf else if a < 0 then .ninf else .nan
  | .fin _, .pinf => .fin 0
  | .fin _, .ninf => .fin 0
  | .pinf, .fin b => if 0 ≤ b then .pinf else .ninf
  | .ninf, .fin b => if 0 ≤ b then .ninf else .pinf
  | .pinf, .pinf => .nan
  | .pinf, .ninf => .nan
  | .ninf, .pinf => .nan
  | .ninf, .ninf => .nan

/-- `Series.mean()` as a float: NaN on an empty selection. -/
def pyMean (xs : List ℚ) : PyF :=
  if xs.isEmpty then .nan else .fin (xs.sum / xs.length)

/-- `round(x, 2)` on a float: NaN and infinities pass through. -/
def pyRound2 : PyF → PyF
  | .fin q => .fin (roundTo 2 q)
  | x => x

/-- Python truthiness of a float: `0.0` is falsy; NaN and infinities are
truthy. -/
def PyF.truthy : PyF → Bool
  | .fin q => decide (q ≠ 0)
  | _ => true

/-- `f"{x:.2f}"` on a float: `inf`, `-inf` and `nan` print as such. -/
def fmtPyF2 : PyF → String
  | .fin q => fmtFixed 2 q
  | .pinf => "inf"
  | .ninf => "-inf"
  | .nan => "nan"

/-! ## Grouping

`groupby` keys.  pandas sorts group keys (`sort=True`); none of the claims
below depends on the order of the groups (they are re-sorted by size or are
singletons), so first-occurrence order is used for the key list.  With
`dropna=False` the null key is a group of its own; by default null keys are
dropped. -/

/-- The distinct values of the list, first occurrence first. -/
def dedupF {β : Type} [DecidableEq β] : List β → List β
  | [] => []
  | x :: xs => x :: (dedupF xs).filter (fun b => decide (b ≠ x))

theorem nodup_dedupF {β : Type} [DecidableEq β] (l : List β) :
    (dedupF l).Nodup := by
  induction l with
  | nil => simp [dedupF]
  | cons x xs ih =>
      refine List.nodup_cons.mpr ⟨?_, ih.filter _⟩
      intro hx
      simp [List.mem_filter] at hx

theorem mem_dedupF {β : Type} [DecidableEq β] {a : β} {l : List β}
    (h : a ∈ l) : a ∈ dedupF l := by
  induction l with
  | nil => cases h
  | cons x xs ih =>
      rcases List.mem_cons.mp h with rfl | h
      · exact List.mem_cons_self _ _
      · by_cases hax : a = x
        · exact hax ▸ List.mem_cons_self _ _
        · exact List.mem_cons_of_mem _
            (List.mem_filter.mpr ⟨ih h, by simpa using hax⟩)

/-! ## Sheet 1 – Overview metrics (`sheet_overview`) -/

/-- The "Overall Fraud Rate" cell: `f"{df['label'].mean()*100:.2f}%"`.
An all-null label column would print as `"nan%"` (float NaN formatting). -/
def overviewFraudRateStr (df : DFrame) : String :=
  match colMean df "label" with
  | some m => fmtFixed 2 (100 * m) ++ "%"
  | none => "nan" ++ "%"

/-- One row of the "Channel Distribution" block: channel value, `count`,
`sum` and formatted `mean` of the label over the group. -/
structure ChannelRow where
  channel : Val
  total : ℕ
  fraud : ℚ
  rateCell : String
deriving DecidableEq, Repr

/-- `df.groupby("channel")` group keys: distinct non-null channel values
(default `dropna=True` drops null keys; pandas sorts keys, but every claim
below concerns a single-group or order-insensitive reading). -/
def channelKeys (df : DFrame) : List Val :=
  (dedupF (df.rows.map (fun r => getV r "channel"))).filter
    (fun v => decide (v ≠ Val.null))

/-- The channel breakdown of `sheet_overview`:
`df.groupby("channel")["label"].agg(["count","sum","mean"])`, with
`fraud_rate = (mean*100).round(2)` rendered as `f"{fraud_rate}%"`. -/
def channelTable (df : DFrame) : List ChannelRow :=
  channelKeys df |>.map (fun k =>
    let g := df.rows.filter (fun r => decide (getV r "channel" = k))
    let xs := numsOf g "label"
    { channel := k
      total := xs.length
      fraud := xs.sum
      rateCell := strFloat2 (roundTo 2 (100 * (xs.sum / xs.length))) ++ "%" })

/-! ## Sheet 7 – Categorical distributions (`sheet_categoricals`) -/

/-- One row of a categorical distribution table:
`df.groupby(col, dropna=False)["label"].agg(["count","sum","mean"])` plus
`pct_all = (total/len(df)*100).round(2)`.  `total` is the pandas `count`
aggregate: the number of non-null *label* cells in the group. -/
structure CatRow where
  value : Val
  total : ℕ
  fraud : ℚ
  frate : Option ℚ
  pctAll : ℚ
deriving DecidableEq, Repr

/-- The group keys of `groupby(col, dropna=False)`: every distinct value of
the column, the null group included. -/
def catKeys (df : DFrame) (col : String) : List Val :=
  dedupF (df.rows.map (fun r => getV r col))

def catRow (df : DFrame) (col : String) (k : Val) : CatRow :=
  let g := df.rows.filter (fun r => decide (getV r col = k))
  let xs := numsOf g "label"
  { value := k
    total := xs.length
    fraud := xs.sum
    frate := if xs.isEmpty then none else some (xs.sum / xs.length)
    pctAll := roundTo 2 (100 * xs.length / df.rows.length) }

/-- The table for one categorical column, sorted
`sort_values("total", ascending=False)`.  (No claim depends on the order of
equal totals, so the stable sort stands in for numpy's introsort here.) -/
def catTable (df : DFrame) (col : String) : List CatRow :=
  sortDesc (fun row => row.total) ((catKeys df col).map (catRow df col))

/-! ## Sheet 8 – Rule analyzer (`sheet_rules`) -/

/-- The per-rule statistics tuple
`(c, total_triggered, trigger_rate, f_triggered, f_not_triggered, lift)`.
`cnt` is `int(df[c].sum())`: on a boolean rule column the sum is a whole
number, so the `int()` truncation is the identity and `cnt` is the sum.
`ft`'s `else 0` branch is the source's `if total_triggered > 0 … else 0`;
the inner `.getD 0` collapses a NaN mean that only a non-boolean rule
column could produce.  `fn = none` models the NaN mean of an empty
non-triggered subset, and `lift`'s guard is
`f_triggered / f_not_triggered if f_not_triggered > 0 else float("nan")`:
a NaN `fn` fails the `> 0` test, so it also yields the NaN lift. -/
structure RuleStat where
  name : String
  cnt : ℚ
  tr : Option ℚ
  ft : ℚ
  fn : Option ℚ
  lift : Option ℚ
deriving DecidableEq, Repr

/-- The rule registry: dataset columns starting with `"rule_"`
(`c.startswith("rule_")`, computed on the character list so that concrete
instances reduce), excluding the `rule_trigger_count` aggregate. -/
def ruleCols (df : DFrame) : List String :=
  df.cols.filter (fun c =>
    decide (c.data.take 5 = "rule_".data) && c != "rule_trigger_count")

def ruleStat (df : DFrame) (c : String) : RuleStat :=
  let s := colSum df c
  let trig := df.rows.filter (fun r => decide (getV r c = Val.num 1))
  let ntrig := df.rows.filter (fun r => decide (getV r c = Val.num 0))
  let ft := if 0 < s then 100 * ((meanOf trig "label").getD 0) else 0
  let fn := (meanOf ntrig "label").map (fun m => 100 * m)
  { name := c
    cnt := s
    tr := (colMean df c).map (fun m => 100 * m)
    ft := ft
    fn := fn
    lift := match fn with
            | some v => if 0 < v then some (ft / v) else none
            | none => none }

/-- The rule table in registry (dataset column) order, before sorting. -/
def ruleStatsUnsorted (df : DFrame) : List RuleStat :=
  (ruleCols df).map (ruleStat df)

/-- `rule_stats.sort(key=lambda x: x[3], reverse=True)` — Python's Timsort,
stable also with `reverse=True`, sorting on `f_triggered`. -/
def ruleStats (df : DFrame) : List RuleStat :=
  sortDesc (fun st => st.ft) (ruleStatsUnsorted df)

/-- The rendered lift cell:
`f"{lift:.2f}x" if not np.isnan(lift) else "N/A"`. -/
def liftCell : Option ℚ → String
  | some q => fmtFixed 2 q ++ "x"
  | none => "N/A"

/-! ## Sheet 4 – Descriptive statistics (`sheet_desc_stats`)

`df[numeric_cols].describe(percentiles=[.25,.5,.75,.90,.95,.99]).T.round(4)`
plus the appended `null_count` / `null_pct` columns.  A statistic of an
empty (all-null) column is NaN (`none`); `describe` never raises.
`stdv` carries the *squared* sample standard deviation (the variance,
`ddof=1`): the square root is irrational in general, and only the
definedness of the `std` field is observable in the claims, which the
square preserves. -/

/-- pandas' linear-interpolation quantile of a non-empty sorted sample:
`h = p·(m−1)`, `x⌊h⌋ + (h−⌊h⌋)·(x⌊h⌋₊₁ − x⌊h⌋)`. -/
def quantileQ (srt : List ℚ) (p : ℚ) : Option ℚ :=
  if srt.isEmpty then none
  else
    let m := srt.length
    let h := p * ((m : ℚ) - 1)
    let i := (⌊h⌋).toNat
    let γ := h - (⌊h⌋ : ℚ)
    let xi := srt.getD i 0
    let xj := srt.getD (min (i + 1) (m - 1)) 0
    some (xi + γ * (xj - xi))

structure DescRow where
  feature : String
  count : ℕ
  mean : Option ℚ
  stdv : Option ℚ
  minv : Option ℚ
  p25 : Option ℚ
  p50 : Option ℚ
  p75 : Option ℚ
  p90 : Option ℚ
  p95 : Option ℚ
  p99 : Option ℚ
  maxv : Option ℚ
  nullCnt : ℕ
  nullPct : Option ℚ
deriving DecidableEq, Repr

def descRow (df : DFrame) (c : String) : DescRow :=
  let xs := numsOf df.rows c
  let srt := sortAsc (fun q => q) xs
  let m := xs.length
  let mu := xs.sum / m
  { feature := c
    count := m
    mean := (meanOf df.rows c).map (roundTo 4)
    stdv := if 2 ≤ m
            then some (roundTo 4 ((xs.map (fun x => (x - mu) ^ 2)).sum / ((m : ℚ) - 1)))
            else none
    minv := (srt.head?).map (roundTo 4)
    p25 := (quantileQ srt (25/100)).map (roundTo 4)
    p50 := (quantileQ srt (50/100)).map (roundTo 4)
    p75 := (quantileQ srt (75/100)).map (roundTo 4)
    p90 := (quantileQ srt (90/100)).map (roundTo 4)
    p95 := (quantileQ srt (95/100)).map (roundTo 4)
    p99 := (quantileQ srt (99/100)).map (roundTo 4)
    maxv := (srt.getLast?).map (roundTo 4)
    nullCnt := nullCount df c
    nullPct := if df.rows.isEmpty then none
               else some (roundTo 2 (100 * (nullCount df c) / df.rows.length)) }

/-- `numeric_cols` of the descriptive-statistics sheet: the numeric dtypes
minus the internal join keys. -/
def descCols (df : DFrame) : List String :=
  df.numericCols.filter (fun c => c != "account_id_x" && c != "account_id_y")

/-- The descriptive-statistics table, one row per numeric column in
dataset column order. -/
def descStatsTable (df : DFrame) : List DescRow :=
  (descCols df).map (descRow df)

/-! ## Sheet 5 – Missing values (`sheet_missing`) and `sort_values`

`nulls.sort_values("null_count", ascending=False)` runs pandas `nargsort`
(pandas/core/sorting.py) with numpy's default `kind='quicksort'`:
the key array and the index array are reversed, the *ascending* argsort is
taken, its gather is reversed again (this double reversal makes a stable
underlying argsort yield a stable descending order), and — the keys being
integers — the NaN branch is empty.  numpy's argsort quicksort
(`npysort/quicksort.c.src`, `aquicksort`) is an introsort: it partitions a
segment only while it holds more than `SMALL_QUICKSORT = 15` + 1 elements
(median-of-three pivot, Hoare-style pointer exchange, explicit stack,
depth limit `2·⌊log₂ n⌋`), and insertion-sorts smaller segments.  It is
therefore stable for ≤ 16 elements and unstable beyond.  The machine below
mirrors that C routine step for step on an index list `ts` over a fixed
key array `v`; the inner pointer scans carry fuel bounds that the real
pointer arithmetic never reaches. -/

/-- `v[*p]`: the key under the index at position `p` of `ts`. -/
def vAt (v ts : List ℕ) (p : ℕ) : ℕ :=
  v.getD (ts.getD p 0) 0

/-- `INTP_SWAP(*pi, *pj)`: swap two positions of the index array. -/
def swpIdx (ts : List ℕ) (i j : ℕ) : List ℕ :=
  (ts.set i (ts.getD j 0)).set j (ts.getD i 0)

/-- `do ++pi; while (v[*pi] < vp)`. -/
def scanUp (v ts : List ℕ) (vp : ℕ) : ℕ → ℕ → ℕ
  | 0, i => i + 1
  | fuel + 1, i =>
      if vAt v ts (i + 1) < vp then scanUp v ts vp fuel (i + 1) else i + 1

/-- `do --pj; while (vp < v[*pj])`. -/
def scanDown (v ts : List ℕ) (vp : ℕ) : ℕ → ℕ → ℕ
  | 0, j => j - 1
  | fuel + 1, j =>
      if vp < vAt v ts (j - 1) then scanDown v ts vp fuel (j - 1) else j - 1

/-- The partition exchange loop: scan up, scan down, break when the
pointers meet (`pi >= pj`), otherwise swap and continue.  Returns the
final array and `pi`. -/
def exchLoop (v : List ℕ) (vp : ℕ) : ℕ → List ℕ → ℕ → ℕ → List ℕ × ℕ
  | 0, ts, i, _ => (ts, i)
  | fuel + 1, ts, i, j =>
      let i' := scanUp v ts vp ts.length i
      let j' := scanDown v ts vp ts.length j
      if j' ≤ i' then (ts, i')
      else exchLoop v vp fuel (swpIdx ts i' j') i' j'

/-- One `aquicksort` partition step on segment `[pl, pr]`: median-of-three
pivot selection, pivot parked at `pr-1`, pointer exchange from
`(pl, pr-1)`, pivot swapped back to the crossing point `pi`. -/
def partStep (v ts : List ℕ) (pl pr : ℕ) : List ℕ × ℕ :=
  let pm := pl + (pr - pl) / 2
  let ts1 := if vAt v ts pm < vAt v ts pl then swpIdx ts pm pl else ts
  let ts2 := if vAt v ts1 pr < vAt v ts1 pm then swpIdx ts1 pr pm else ts1
  let ts3 := if vAt v ts2 pm < vAt v ts2 pl then swpIdx ts2 pm pl else ts2
  let vp := vAt v ts3 pm
  let ts4 := swpIdx ts3 pm (pr - 1)
  let step := exchLoop v vp (ts4.length + 2) ts4 pl (pr - 1)
  (swpIdx step.1 step.2 (pr - 1), step.2)

/-- The trailing insertion sort of a small segment `[pl, pr]`.  numpy's
in-place insertion loop shifts an element left only past strictly greater
keys, i.e. it computes the stable ascending sort of the slice. -/
def insSeg (v ts : List ℕ) (pl pr : ℕ) : List ℕ :=
  let m := pr + 1 - pl
  ts.take pl ++ sortAsc (fun i => v.getD i 0) ((ts.drop pl).take m)
    ++ ts.drop (pl + m)

/-- The `aquicksort` outer loop: partition while the segment holds more
than 16 elements (pushing the larger half on the stack), insertion-sort it
otherwise, then pop the stack.  On depth exhaustion numpy switches to
heapsort; that branch — unreachable for every input analyzed in this
file — is modelled by the (equally correct, possibly differently
tie-ordered) insertion sort. -/
def qsLoop (v : List ℕ) : ℕ → List ℕ → ℕ → ℕ → List (ℕ × ℕ) → ℤ → List ℕ
  | 0, ts, _, _, _, _ => ts
  | fuel + 1, ts, pl, pr, stack, depth =>
      if 15 < pr - pl then
        if depth < 0 then
          let ts' := insSeg v ts pl pr
          match stack with
          | [] => ts'
          | (pl', pr') :: st => qsLoop v fuel ts' pl' pr' st (depth - 1)
        else
          let step := partStep v ts pl pr
          let pi := step.2
          if pi - pl < pr - pi then
            qsLoop v fuel step.1 pl (pi - 1) ((pi + 1, pr) :: stack) (depth - 1)
          else
            qsLoop v fuel step.1 (pi + 1) pr ((pl, pi - 1) :: stack) (depth - 1)
      else
        let ts' := insSeg v ts pl pr
        match stack with
        | [] => ts'
        | (pl', pr') :: st => qsLoop v fuel ts' pl' pr' st depth

/-- `np.argsort(v, kind="quicksort")`.  A whole array of at most 16
elements never enters the partition loop (`pr - pl = n - 1 ≤ 15`), so the
machine is a single stable insertion sort of the index range — written
directly as such; larger arrays run the introsort machine, whose outer
loop performs at most one partition or one stack pop per iteration, well
within the supplied fuel. -/
def aquicksortIdx (v : List ℕ) : List ℕ :=
  let n := v.length
  if n ≤ 16 then sortAsc (fun i => v.getD i 0) (List.range n)
  else qsLoop v (4 * n + 16) (List.range n) 0 (n - 1) [] (2 * Nat.log2 n)

/-- pandas `nargsort(values, kind="quicksort", ascending=False)` for
NaN-free keys: reverse the keys and the index range, take the ascending
argsort, gather, reverse. -/
def nargsortDesc (keys : List ℕ) : List ℕ :=
  let n := keys.length
  let p := aquicksortIdx keys.reverse
  let revIdx := (List.range n).reverse
  (p.map (fun i => revIdx.getD i 0)).reverse

/-- One row of the missing-value sheet (the claim-relevant columns of
`nulls`: name, null count, null percentage; the dtype/group/notes columns
are static lookups joined per row and are not modelled). -/
structure MissRow where
  col : String
  nullCnt : ℕ
  nullPct : Option ℚ
deriving DecidableEq, Repr

/-- The per-column null counts, in dataset column order
(`df.isnull().sum()`). -/
def missKeys (df : DFrame) : List ℕ :=
  df.cols.map (nullCount df)

/-- Row `i` of the unsorted `nulls` frame. -/
def missRowAt (df : DFrame) (i : ℕ) : MissRow :=
  { col := df.cols.getD i ""
    nullCnt := (missKeys df).getD i 0
    nullPct := if df.rows.isEmpty then none
               else some (roundTo 2
                 (100 * ((missKeys df).getD i 0) / df.rows.length)) }

/-- The `nulls` frame before sorting: one row per dataset column, in
column order. -/
def unsortedMissing (df : DFrame) : List MissRow :=
  (List.range df.cols.length).map (missRowAt df)

/-- The missing-value sheet:
`nulls.sort_values("null_count", ascending=False)`. -/
def missingTable (df : DFrame) : List MissRow :=
  (nargsortDesc (missKeys df)).map (missRowAt df)

/-! ## Sheet 6 – Graph features, Section 2 (`sheet_graph_eda`)

`ratio = round(fraud_m/legit_m, 2) if legit_m else float("nan")`, rendered
`f"{ratio:.2f}x"`.  Python truthiness: `0.0` is falsy but NaN is truthy,
so only an exactly-zero legitimate mean takes the guard — and the guard
substitutes NaN, which is still *rendered* (`"nanx"`), not omitted. -/

/-- `df.loc[non_null & (label==v), col].mean()` as a float. -/
def graphGroupMean (df : DFrame) (col : String) (v : ℚ) : PyF :=
  pyMean (numsOf (df.rows.filter (fun r =>
    decide ((getV r col).toNum? ≠ none) && decide (getV r "label" = Val.num v))) col)

/-- The "Fraud/Legit Ratio" cell of Section 2 for a graph column. -/
def graphRatioCell (df : DFrame) (col : String) : String :=
  let legitM := graphGroupMean df col 0
  let fraudM := graphGroupMean df col 1
  let v := if legitM.truthy then pyRound2 (PyF.div fraudM legitM) else PyF.nan
  fmtPyF2 v ++ "x"

/-! ## Sheet 10 – Fraud-type profiler (`sheet_fraud_types`)

The per-subtype key-metrics block compares `sub = df[fraud_type == ft]`
against `normal = df[fraud_type == "normal"]`.  The three populated ratio
cells (`Average Amount`, `Avg devices_per_account`,
`Avg accounts_per_device`) are bare f-string divisions of the two means —
`f"{sub[col].mean()/normal[col].mean():.2f}x"` — with *no* zero guard:
numpy scalar division by zero warns (suppressed) and yields inf, -inf or
NaN, which the f-string renders as `"infx"`, `"-infx"` or `"nanx"`. -/

/-- The rows of fraud subtype `ft`. -/
def ftSub (df : DFrame) (ft : String) : List (List (String × Val)) :=
  df.rows.filter (fun r => decide (getV r "fraud_type" = Val.str ft))

/-- `sub[col].mean()` as a float (NaN on an empty subtype). -/
def ftColMean (df : DFrame) (ft col : String) : PyF :=
  pyMean (numsOf (ftSub df ft) col)

/-- A key-metrics ratio cell: subtype mean over the `"normal"` baseline
mean, unguarded. -/
def ftMeanRatioCell (df : DFrame) (ft col : String) : String :=
  fmtPyF2 (PyF.div (ftColMean df ft col) (ftColMean df "normal" col)) ++ "x"

/-! ## Sheet 11 – Correlation ranker (`sheet_correlations`)

`df[numeric_cols + ["label"]].corr()["label"].drop("label")
   .sort_values(key=abs, ascending=False)`.

pandas Pearson correlation of a feature with the label is computed over
the rows where both are non-null; it is a number iff both centered sums of
squares are positive, and NaN otherwise (zero variance, or no overlap).
`sort_values(..., na_position='last')` appends the NaN positions after the
sorted non-NaN ones.  Sorting by `|r|` descending is sorting by
`rSq = r²` descending (squaring is a strictly monotone bijection of
`[0,∞)`), with NaN below everything — the `WithBot ℚ` key `corrKey`.
No claim depends on the order of exactly tied `|r|` values, so the stable
sort stands in for numpy's introsort here. -/

/-- The exact representation of one feature's Pearson correlation with the
label: the centered cross sum and the two centered sums of squares. -/
structure CorrEntry where
  feature : String
  cov : ℚ
  vx : ℚ
  vy : ℚ
deriving DecidableEq, Repr

/-- The correlation is a number (not NaN) iff both sums of squares are
positive. -/
def corrDefined (e : CorrEntry) : Prop :=
  0 < e.vx ∧ 0 < e.vy

instance (e : CorrEntry) : Decidable (corrDefined e) := by
  unfold corrDefined; infer_instance

/-- `r² = cov²/(vx·vy)`, the square of the coefficient. -/
def rSq (e : CorrEntry) : ℚ :=
  e.cov ^ 2 / (e.vx * e.vy)

/-- The `sort_values(key=abs, ascending=False, na_position='last')` key:
`|r|` ordered via `r²`, NaN at the bottom. -/
def corrKey (e : CorrEntry) : WithBot ℚ :=
  if corrDefined e then (rSq e : WithBot ℚ) else ⊥

/-- The paired non-null samples of feature `c` and the label. -/
def corrPairs (df : DFrame) (c : String) : List (ℚ × ℚ) :=
  df.rows.filterMap (fun r =>
    match (getV r c).toNum?, (getV r "label").toNum? with
    | some x, some y => some (x, y)
    | _, _ => none)

def corrEntry (df : DFrame) (c : String) : CorrEntry :=
  let ps := corrPairs df c
  let n := ps.length
  let mx := (ps.map Prod.fst).sum / n
  let my := (ps.map Prod.snd).sum / n
  { feature := c
    cov := (ps.map (fun p => (p.1 - mx) * (p.2 - my))).sum
    vx := (ps.map (fun p => (p.1 - mx) ^ 2)).sum
    vy := (ps.map (fun p => (p.2 - my) ^ 2)).sum }

/-- `numeric_cols` of the correlation sheet: numeric dtypes minus the
label itself and the internal join keys. -/
def corrCols (df : DFrame) : List String :=
  df.numericCols.filter (fun c =>
    c != "label" && c != "account_id_x" && c != "account_id_y")

/-- The ranked correlation table. -/
def corrTable (df : DFrame) : List CorrEntry :=
  sortDesc corrKey ((corrCols df).map (corrEntry df))

/-- The direction cell,
`"Positive (↑ with fraud)" if x > 0 else "Negative (↓ with fraud)"`:
defined positive coefficients (`cov > 0`) take the first branch; zero,
negative *and NaN* coefficients (`NaN > 0` is false) take the second. -/
def directionCell (e : CorrEntry) : String :=
  if corrDefined e ∧ 0 < e.cov then "Positive (↑ with fraud)"
  else "Negative (↓ with fraud)"

/-- The signal-strength bucket from `|r|` thresholds, via `r²`
(`|r| > t ↔ r² > t²` on defined entries; every comparison with NaN is
false, so a NaN coefficient lands in `"Negligible"`). -/
def signalCell (e : CorrEntry) : String :=
  if corrDefined e ∧ 1/4 < rSq e then "Very Strong"
  else if corrDefined e ∧ 9/100 < rSq e then "Strong"
  else if corrDefined e ∧ 9/400 < rSq e then "Moderate"
  else if corrDefined e ∧ 1/400 < rSq e then "Weak"
  else "Negligible"

/-! ## Concrete datasets for witnesses and counterexamples -/

/-- The spec's rule scenario: 10 rows, one rule column triggered on 4 rows
of which 3 are fraud; the 6 non-triggered rows hold 3 frauds. -/
def ruleExDf : DFrame :=
  { cols := ["label", "rule_large_cash_deposit"]
    numericCols := ["label", "rule_large_cash_deposit"]
    rows :=
      [[("label", Val.num 1), ("rule_large_cash_deposit", Val.num 1)],
       [("label", Val.num 1), ("rule_large_cash_deposit", Val.num 1)],
       [("label", Val.num 1), ("rule_large_cash_deposit", Val.num 1)],
       [("label", Val.num 0), ("rule_large_cash_deposit", Val.num 1)],
       [("label", Val.num 1), ("rule_large_cash_deposit", Val.num 0)],
       [("label", Val.num 1), ("rule_large_cash_deposit", Val.num 0)],
       [("label", Val.num 1), ("rule_large_cash_deposit", Val.num 0)],
       [("label", Val.num 0), ("rule_large_cash_deposit", Val.num 0)],
       [("label", Val.num 0), ("rule_large_cash_deposit", Val.num 0)],
       [("label", Val.num 0), ("rule_large_cash_deposit", Val.num 0)]] }

/-- The overview scenario: 10 rows, 6 labeled fraud, every channel "web". -/
def ovExDf : DFrame :=
  { cols := ["label", "channel"]
    numericCols := ["label"]
    rows :=
      [[("label", Val.num 1), ("channel", Val.str "web")],
       [("label", Val.num 1), ("channel", Val.str "web")],
       [("label", Val.num 1), ("channel", Val.str "web")],
       [("label", Val.num 1), ("channel", Val.str "web")],
       [("label", Val.num 1), ("channel", Val.str "web")],
       [("label", Val.num 1), ("channel", Val.str "web")],
       [("label", Val.num 0), ("channel", Val.str "web")],
       [("label", Val.num 0), ("channel", Val.str "web")],
       [("label", Val.num 0), ("channel", Val.str "web")],
       [("label", Val.num 0), ("channel", Val.str "web")]] }

/-- A categorical column with a null group: 5 rows, channels
web, web, atm, null, null. -/
def catExDf : DFrame :=
  { cols := ["label", "channel"]
    numericCols := ["label"]
    rows :=
      [[("label", Val.num 1), ("channel", Val.str "web")],
       [("label", Val.num 0), ("channel", Val.str "web")],
       [("label", Val.num 1), ("channel", Val.str "atm")],
       [("label", Val.num 0), ("channel", Val.null)],
       [("label", Val.num 1), ("channel", Val.null)]] }

/-- A numeric column that is entirely null, over 2 rows. -/
def dsExDf : DFrame :=
  { cols := ["label", "allnull"]
    numericCols := ["label", "allnull"]
    rows :=
      [[("label", Val.num 0), ("allnull", Val.null)],
       [("label", Val.num 1), ("allnull", Val.null)]] }

/-- Seventeen columns — one more than numpy's insertion-sort regime — and
a single fully populated row, so every null count is 0: all seventeen
sort keys are tied. -/
def mvExDf17 : DFrame :=
  { cols := ["c00", "c01", "c02", "c03", "c04", "c05", "c06", "c07", "c08",
             "c09", "c10", "c11", "c12", "c13", "c14", "c15", "c16"]
    numericCols := []
    rows := [[("c00", Val.num 0), ("c01", Val.num 0), ("c02", Val.num 0),
              ("c03", Val.num 0), ("c04", Val.num 0), ("c05", Val.num 0),
              ("c06", Val.num 0), ("c07", Val.num 0), ("c08", Val.num 0),
              ("c09", Val.num 0), ("c10", Val.num 0), ("c11", Val.num 0),
              ("c12", Val.num 0), ("c13", Val.num 0), ("c14", Val.num 0),
              ("c15", Val.num 0), ("c16", Val.num 0)]] }

/-- Three columns with null counts 0, 2, 2 over two rows (a tie). -/
def mvExDf3 : DFrame :=
  { cols := ["a", "b", "c"]
    numericCols := []
    rows := [[("a", Val.num 1), ("b", Val.null), ("c", Val.null)],
             [("a", Val.num 2), ("b", Val.null), ("c", Val.null)]] }

/-- A varying feature and a constant (zero-variance) feature. -/
def corExDf : DFrame :=
  { cols := ["xv", "cst", "label"]
    numericCols := ["xv", "cst", "label"]
    rows :=
      [[("xv", Val.num 0), ("cst", Val.num 5), ("label", Val.num 0)],
       [("xv", Val.num 1), ("cst", Val.num 5), ("label", Val.num 0)],
       [("xv", Val.num 2), ("cst", Val.num 5), ("label", Val.num 1)],
       [("xv", Val.num 3), ("cst", Val.num 5), ("label", Val.num 1)]] }

/-- A feature whose correlation with the label is exactly zero. -/
def corZeroDf : DFrame :=
  { cols := ["zf", "label"]
    numericCols := ["zf", "label"]
    rows :=
      [[("zf", Val.num 0), ("label", Val.num 0)],
       [("zf", Val.num 1), ("label", Val.num 1)],
       [("zf", Val.num 0), ("label", Val.num 1)],
       [("zf", Val.num 1), ("label", Val.num 0)]] }

/-- A fraud-type dataset whose "normal" baseline has mean amount 0 and
whose legitimate rows have a zero mean on the graph column `gcol`. -/
def ftExDf : DFrame :=
  { cols := ["fraud_type", "label", "amount", "gcol"]
    numericCols := ["label", "amount", "gcol"]
    rows :=
      [[("fraud_type", Val.str "normal"), ("label", Val.num 0),
        ("amount", Val.num 0), ("gcol", Val.num 0)],
       [("fraud_type", Val.str "normal"), ("label", Val.num 0),
        ("amount", Val.num 0), ("gcol", Val.num 0)],
       [("fraud_type", Val.str "mule_ring"), ("label", Val.num 1),
        ("amount", Val.num 5), ("gcol", Val.num 7)]] }

/-! ## Support lemmas on binary label columns -/

theorem numsOf_label_nonneg {rows : List (List (String × Val))}
    (hb : ∀ r ∈ rows,
      getV r "label" = Val.num 0 ∨ getV r "label" = Val.num 1) :
    ∀ x ∈ numsOf rows "label", 0 ≤ x := by
  intro x hx
  rcases List.mem_filterMap.mp hx with ⟨r, hr, hrx⟩
  rcases hb r hr with h | h <;>
    (rw [h] at hrx; simp [Val.toNum?] at hrx; simp [← hrx])

theorem numsOf_label_length {rows : List (List (String × Val))}
    (hb : ∀ r ∈ rows,
      getV r "label" = Val.num 0 ∨ getV r "label" = Val.num 1) :
    (numsOf rows "label").length = rows.length := by
  induction rows with
  | nil => rfl
  | cons r rs ih =>
      have hb' : ∀ x ∈ rs,
          getV x "label" = Val.num 0 ∨ getV x "label" = Val.num 1 :=
        fun x hx => hb x (List.mem_cons_of_mem _ hx)
      rcases hb r (List.mem_cons_self _ _) with h | h <;>
        simp [numsOf, List.filterMap_cons, h, Val.toNum?, ← ih hb',
          numsOf]

theorem numsOf_label_sum {rows : List (List (String × Val))}
    (hb : ∀ r ∈ rows,
      getV r "label" = Val.num 0 ∨ getV r "label" = Val.num 1) :
    (numsOf rows "label").sum =
      ((rows.filter (fun r => decide (getV r "label" = Val.num 1))).length : ℚ) := by
  induction rows with
  | nil => rfl
  | cons r rs ih =>
      have hb' : ∀ x ∈ rs,
          getV x "label" = Val.num 0 ∨ getV x "label" = Val.num 1 :=
        fun x hx => hb x (List.mem_cons_of_mem _ hx)
      have ih' := ih hb'
      rcases hb r (List.mem_cons_self _ _) with h | h
      · have h1 : numsOf (r :: rs) "label" = 0 :: numsOf rs "label" := by
          simp [numsOf, List.filterMap_cons, h, Val.toNum?]
        have h2 : (r :: rs).filter (fun r => decide (getV r "label" = Val.num 1))
            = rs.filter (fun r => decide (getV r "label" = Val.num 1)) := by
          simp [List.filter_cons, h]
        rw [h1, h2, List.sum_cons, ih', zero_add]
      · have h1 : numsOf (r :: rs) "label" = 1 :: numsOf rs "label" := by
          simp [numsOf, List.filterMap_cons, h, Val.toNum?]
        have h2 : (r :: rs).filter (fun r => decide (getV r "label" = Val.num 1))
            = r :: rs.filter (fun r => decide (getV r "label" = Val.num 1)) := by
          simp [List.filter_cons, h]
        rw [h1, h2, List.sum_cons, ih', List.length_cons]
        push_cast
        ring

/-- A non-NaN mean of a binary label selection is nonnegative, hence so is
the fraud-rate-when-not-triggered of every rule. -/
theorem ruleStat_fn_nonneg (df : DFrame) (hb : BinaryLabel df) (c : String)
    {v : ℚ} (hv : (ruleStat df c).fn = some v) : 0 ≤ v := by
  have hfn : (ruleStat df c).fn =
      (meanOf (df.rows.filter (fun r => decide (getV r c = Val.num 0)))
        "label").map (fun m => 100 * m) := rfl
  rw [hfn] at hv
  set g := df.rows.filter (fun r => decide (getV r c = Val.num 0)) with hg
  rcases hm : meanOf g "label" with _ | m
  · rw [hm] at hv; cases hv
  · rw [hm] at hv
    simp only [Option.map_some', Option.some.injEq] at hv
    have hb' : ∀ r ∈ g,
        getV r "label" = Val.num 0 ∨ getV r "label" = Val.num 1 :=
      fun r hr => hb r (List.mem_of_mem_filter hr)
    have hsum : 0 ≤ (numsOf g "label").sum :=
      List.sum_nonneg (numsOf_label_nonneg hb')
    have hmean : 0 ≤ m := by
      unfold meanOf at hm
      by_cases he : (numsOf g "label").isEmpty
      · rw [if_pos he] at hm; cases hm
      · rw [if_neg he] at hm
        rw [← Option.some.inj hm]
        exact div_nonneg hsum (by positivity)
    rw [← hv]
    positivity

/-- C1 — For every rule column (name starting `rule_`, excluding
`rule_trigger_count`), the reported lift equals
fraud-rate-when-triggered / fraud-rate-when-not-triggered whenever the
latter is nonzero, and otherwise (a zero — or NaN — non-triggered fraud
rate) the lift cell is the `"N/A"` sentinel rather than an error. -/
theorem rule_lift_spec (df : DFrame) (hb : BinaryLabel df) :
    ∀ st ∈ ruleStats df,
      (∀ v, st.fn = some v → v ≠ 0 → st.lift = some (st.ft / v)) ∧
      ((st.fn = some 0 ∨ st.fn = none) → liftCell st.lift = "N/A") := by
  intro st hst
  rw [ruleStats] at hst
  have hst' : st ∈ ruleStatsUnsorted df :=
    (perm_sortDesc (fun s : RuleStat => s.ft) (ruleStatsUnsorted df)).mem_iff.mp hst
  rcases List.mem_map.mp hst' with ⟨c, _, rfl⟩
  have hchar : (ruleStat df c).lift =
      match (ruleStat df c).fn with
      | some v => if 0 < v then some ((ruleStat df c).ft / v) else none
      | none => none := rfl
  constructor
  · intro v hv hvne
    have hpos : 0 < v :=
      lt_of_le_of_ne (ruleStat_fn_nonneg df hb c hv) (Ne.symm hvne)
    rw [hchar, hv]
    simp [hpos]
  · intro h
    rcases h with h | h <;> rw [hchar, h] <;> simp [liftCell]

/-- C1 witness: the spec's own scenario (4 of 10 rows triggered, 3 fraud;
3 fraud among the 6 non-triggered): fn = 50, lift = 75/50 = 1.50x. -/
theorem rule_lift_spec_w :
    (ruleStat ruleExDf "rule_large_cash_deposit").lift =
      some ((ruleStat ruleExDf "rule_large_cash_deposit").ft / 50) ∧
    liftCell (ruleStat ruleExDf "rule_large_cash_deposit").lift = "1.50x" := by
  refine ⟨?_, by decide⟩
  have h := rule_lift_spec ruleExDf (by decide)
    (ruleStat ruleExDf "rule_large_cash_deposit") (by decide)
  exact h.1 50 (by decide) (by norm_num)

/-- C5 — The per-rule statistics table is sorted descending by
fraud-rate-when-triggered (`x[3]`), and rules with equal
fraud-rate-when-triggered appear in original registry order (the dataset
column order of `ruleStatsUnsorted`): Python's `list.sort(..., reverse=True)`
is a stable Timsort.  The filter equality says exactly that the sub-list
of rows at any tied rate is untouched by the sort. -/
theorem rule_table_sorted_stable (df : DFrame) :
    (ruleStats df).Pairwise (fun a b => b.ft ≤ a.ft) ∧
    ∀ q : ℚ, (ruleStats df).filter (fun st => st.ft = q) =
      (ruleStatsUnsorted df).filter (fun st => st.ft = q) :=
  ⟨pairwise_sortDesc _ _, fun q => filter_sortDesc _ q _⟩

/-! ## C4 – grouping partitions the rows -/

theorem length_filter_split {α : Type} (p : α → Bool) (l : List α) :
    (l.filter p).length + (l.filter (fun a => !p a)).length = l.length := by
  induction l with
  | nil => rfl
  | cons x xs ih => cases hx : p x <;> simp [List.filter_cons, hx, ← ih] <;> omega

theorem length_filter_partition {α β : Type} [DecidableEq β] (f : α → β) :
    ∀ (keys : List β) (rows : List α), keys.Nodup →
      (∀ r ∈ rows, f r ∈ keys) →
      (keys.map (fun k => (rows.filter (fun r => decide (f r = k))).length)).sum
        = rows.length := by
  intro keys
  induction keys with
  | nil =>
      intro rows _ hall
      have h0 : rows = [] := by
        cases rows with
        | nil => rfl
        | cons r rs => exact absurd (hall r (List.mem_cons_self _ _)) (by simp)
      simp [h0]
  | cons k ks ih =>
      intro rows hnd hall
      rcases List.nodup_cons.mp hnd with ⟨hk, hnd'⟩
      have hmap : ∀ k' ∈ ks,
          (rows.filter (fun r => decide (f r = k'))).length =
          ((rows.filter (fun r => !decide (f r = k))).filter
            (fun r => decide (f r = k'))).length := by
        intro k' hk'
        have hne : k' ≠ k := fun h => hk (h ▸ hk')
        rw [List.filter_filter]
        congr 1
        refine (List.filter_congr ?_)
        intro r _
        by_cases hr : f r = k'
        · have : f r ≠ k := fun h => hne (hr ▸ h ▸ rfl)
          simp [hr, this, hne]
        · simp [hr]
      have hih : ((rows.filter (fun r => !decide (f r = k))).length : ℕ) =
          (ks.map (fun k' => ((rows.filter (fun r => !decide (f r = k))).filter
            (fun r => decide (f r = k'))).length)).sum := by
        refine (ih (rows.filter (fun r => !decide (f r = k))) hnd' ?_).symm
        intro r hr
        rcases List.mem_filter.mp hr with ⟨hrr, hrk⟩
        have := hall r hrr
        rcases List.mem_cons.mp this with h | h
        · simp [h] at hrk
        · exact h
      calc ((k :: ks).map
            (fun k => (rows.filter (fun r => decide (f r = k))).length)).sum
          = (rows.filter (fun r => decide (f r = k))).length +
            (ks.map (fun k' =>
              (rows.filter (fun r => decide (f r = k'))).length)).sum := by
            simp
        _ = (rows.filter (fun r => decide (f r = k))).length +
            (rows.filter (fun r => !decide (f r = k))).length := by
            rw [List.map_congr_left hmap, ← hih]
        _ = rows.length := length_filter_split _ rows

/-- The label count of a group equals its row count when labels are binary
(pandas `count` skips only nulls). -/
theorem catRow_total (df : DFrame) (col : String) (hb : BinaryLabel df)
    (k : Val) : (catRow df col k).total =
      (df.rows.filter (fun r => decide (getV r col = k))).length := by
  have hsub : ∀ r ∈ df.rows.filter (fun r => decide (getV r col = k)),
      getV r "label" = Val.num 0 ∨ getV r "label" = Val.num 1 :=
    fun r hr => hb r (List.mem_of_mem_filter hr)
  exact numsOf_label_length hsub

/-- C4 — For every categorical column, the per-value `total count`s of the
Categorical Profiler's table sum to the dataset row count: grouping with
`dropna=False` keeps the null group, so the groups partition the rows. -/
theorem cat_totals_sum (df : DFrame) (col : String) (hb : BinaryLabel df) :
    ((catTable df col).map (fun row => row.total)).sum = df.rows.length := by
  have hperm := perm_sortDesc (fun row : CatRow => row.total)
    ((catKeys df col).map (catRow df col))
  have h1 : ((catTable df col).map (fun row => row.total)).sum
      = (((catKeys df col).map (catRow df col)).map
          (fun row => row.total)).sum :=
    (hperm.map (fun row : CatRow => row.total)).sum_eq
  rw [h1, List.map_map]
  have h2 : ((catKeys df col).map ((fun row : CatRow => row.total) ∘ catRow df col))
      = (catKeys df col).map (fun k =>
          (df.rows.filter (fun r => decide (getV r col = k))).length) :=
    List.map_congr_left (fun k _ => catRow_total df col hb k)
  rw [h2]
  refine length_filter_partition (fun r => getV r col) (catKeys df col) df.rows
    (nodup_dedupF _) ?_
  intro r hr
  exact mem_dedupF (List.mem_map_of_mem (fun r => getV r col) hr)

/-- C4 witness: five rows over channels web, web, atm, null, null — the
null group is kept and the totals sum to 5. -/
theorem cat_totals_sum_w :
    ((catTable catExDf "channel").map (fun row => row.total)).sum = 5 :=
  (cat_totals_sum catExDf "channel" (by decide)).trans (by decide)

/-! ## C9 – the overview scenario -/

theorem dedupF_replicate {β : Type} [DecidableEq β] (v : β) :
    ∀ n : ℕ, 0 < n → dedupF (List.replicate n v) = [v] := by
  intro n
  induction n with
  | zero => intro h; cases h
  | succ m ih =>
      intro _
      rw [List.replicate_succ, dedupF]
      cases m with
      | zero => simp [dedupF]
      | succ m' => simp [ih (Nat.succ_pos m')]

/-- C9 — On a dataset of 10 rows, 6 of them labeled fraud and all on
channel "web", the Overview sheet reports the overall fraud rate as
`"60.00%"` (`f"{mean*100:.2f}%"`) and a single-row channel breakdown
`("web", 10, 6, "60.0%")`. -/
theorem overview_scenario (df : DFrame) (hb : BinaryLabel df)
    (hlen : df.rows.length = 10)
    (hfr : (df.rows.filter
      (fun r => decide (getV r "label" = Val.num 1))).length = 6)
    (hch : ∀ r ∈ df.rows, getV r "channel" = Val.str "web") :
    overviewFraudRateStr df = "60.00%" ∧
    channelTable df = [⟨Val.str "web", 10, 6, "60.0%"⟩] := by
  have hnlen : (numsOf df.rows "label").length = 10 :=
    (numsOf_label_length hb).trans hlen
  have hnsum : (numsOf df.rows "label").sum = 6 := by
    rw [numsOf_label_sum hb, hfr]; norm_num
  have hne : ¬ (numsOf df.rows "label").isEmpty := by
    rw [List.isEmpty_iff, ← List.length_eq_zero]
    omega
  have hmean : colMean df "label" = some (3 / 5) := by
    unfold colMean meanOf
    rw [if_neg hne, hnsum, hnlen]
    norm_num
  constructor
  · rw [overviewFraudRateStr, hmean]
    show fmtFixed 2 (100 * (3 / 5)) ++ "%" = "60.00%"
    have h60 : (100 : ℚ) * (3 / 5) = 60 := by norm_num
    rw [h60]
    decide
  · have hmapch : df.rows.map (fun r => getV r "channel") =
        List.replicate df.rows.length (Val.str "web") := by
      rw [← List.length_map df.rows (fun r => getV r "channel")]
      refine List.eq_replicate_of_mem ?_
      intro b hbm
      rcases List.mem_map.mp hbm with ⟨r, hr, rfl⟩
      exact hch r hr
    have hkeys : channelKeys df = [Val.str "web"] := by
      unfold channelKeys
      rw [hmapch, hlen, dedupF_replicate _ 10 (by norm_num)]
      decide
    have hgrp : df.rows.filter
        (fun r => decide (getV r "channel" = Val.str "web")) = df.rows := by
      refine List.filter_eq_self.mpr ?_
      intro r hr
      simp [hch r hr]
    rw [channelTable, hkeys]
    simp only [List.map_cons, List.map_nil]
    rw [hgrp]
    simp only [hnsum, hnlen]
    have h60 : (100 : ℚ) * ((6 : ℚ) / ((10 : ℕ) : ℚ)) = 60 := by norm_num
    rw [h60]
    decide

/-- C9 witness: the concrete ten-row all-"web" dataset. -/
theorem overview_scenario_w :
    overviewFraudRateStr ovExDf = "60.00%" ∧
    channelTable ovExDf = [⟨Val.str "web", 10, 6, "60.0%"⟩] :=
  overview_scenario ovExDf (by decide) (by decide) (by decide) (by decide)

/-! ## C8 – an all-null numeric column never breaks `describe` -/

/-- C8 — A numeric column that is entirely null yields a Descriptive
Statistics row with non-null count 0, null percentage 100.00%, and every
statistic (mean, std, min, all percentiles, max) equal to the NaN sentinel
(`none`); the computation is a total function, so it cannot raise. -/
theorem desc_all_null (df : DFrame) (c : String)
    (hnull : ∀ r ∈ df.rows, getV r c = Val.null)
    (hne : df.rows ≠ []) :
    (descRow df c).count = 0 ∧
    (descRow df c).mean = none ∧
    (descRow df c).stdv = none ∧
    (descRow df c).minv = none ∧
    (descRow df c).p25 = none ∧
    (descRow df c).p50 = none ∧
    (descRow df c).p75 = none ∧
    (descRow df c).p90 = none ∧
    (descRow df c).p95 = none ∧
    (descRow df c).p99 = none ∧
    (descRow df c).maxv = none ∧
    (descRow df c).nullCnt = df.rows.length ∧
    (descRow df c).nullPct = some 100 := by
  have hxs : numsOf df.rows c = [] := by
    unfold numsOf
    rw [List.filterMap_eq_nil_iff]
    intro r hr
    rw [hnull r hr]
    rfl
  have hcnt : nullCount df c = df.rows.length := by
    unfold nullCount
    rw [List.filter_eq_self.mpr (fun r hr => by simp [hnull r hr])]
  have hlenne : df.rows.length ≠ 0 := fun h => hne (List.length_eq_zero.mp h)
  have hemp : ¬ (df.rows.isEmpty = true) := by
    rw [List.isEmpty_iff]
    exact hne
  have hpct : (100 : ℚ) * (nullCount df c) / df.rows.length = 100 := by
    rw [hcnt]
    have hq : ((df.rows.length : ℚ)) ≠ 0 := Nat.cast_ne_zero.mpr hlenne
    field_simp
  refine ⟨?_, ?_, ?_, ?_, ?_, ?_, ?_, ?_, ?_, ?_, ?_, ?_, ?_⟩
  · show (numsOf df.rows c).length = 0
    rw [hxs]; rfl
  · show ((meanOf df.rows c).map (roundTo 4)) = none
    unfold meanOf
    rw [hxs]; rfl
  · show (if 2 ≤ (numsOf df.rows c).length then _ else none) = none
    rw [hxs]; simp
  · show (((sortAsc (fun q : ℚ => q) (numsOf df.rows c)).head?).map
      (roundTo 4)) = none
    rw [hxs]; rfl
  · show ((quantileQ (sortAsc (fun q : ℚ => q) (numsOf df.rows c))
      (25/100)).map (roundTo 4)) = none
    rw [hxs]; rfl
  · show ((quantileQ (sortAsc (fun q : ℚ => q) (numsOf df.rows c))
      (50/100)).map (roundTo 4)) = none
    rw [hxs]; rfl
  · show ((quantileQ (sortAsc (fun q : ℚ => q) (numsOf df.rows c))
      (75/100)).map (roundTo 4)) = none
    rw [hxs]; rfl
  · show ((quantileQ (sortAsc (fun q : ℚ => q) (numsOf df.rows c))
      (90/100)).map (roundTo 4)) = none
    rw [hxs]; rfl
  · show ((quantileQ (sortAsc (fun q : ℚ => q) (numsOf df.rows c))
      (95/100)).map (roundTo 4)) = none
    rw [hxs]; rfl
  · show ((quantileQ (sortAsc (fun q : ℚ => q) (numsOf df.rows c))
      (99/100)).map (roundTo 4)) = none
    rw [hxs]; rfl
  · show (((sortAsc (fun q : ℚ => q) (numsOf df.rows c)).getLast?).map
      (roundTo 4)) = none
    rw [hxs]; rfl
  · exact hcnt
  · show (if df.rows.isEmpty then none
      else some (roundTo 2 (100 * (nullCount df c) / df.rows.length)))
        = some 100
    rw [if_neg hemp, hpct]
    have : roundTo 2 (100 : ℚ) = 100 := by decide
    rw [this]

/-- C8 witness: a two-row dataset whose numeric column `allnull` is fully
null. -/
theorem desc_all_null_w :
    (descRow dsExDf "allnull").count = 0 ∧
    (descRow dsExDf "allnull").mean = none ∧
    (descRow dsExDf "allnull").nullPct = some 100 :=
  have h := desc_all_null dsExDf "allnull" (by decide) (by decide)
  ⟨h.1, h.2.1, h.2.2.2.2.2.2.2.2.2.2.2.2⟩

/-! ## C6/C2/C10 – the correlation ranker -/

theorem listSum_eq_range {α : Type} (g : α → ℚ) (d : α) :
    ∀ l : List α,
      (l.map g).sum = ∑ i ∈ Finset.range l.length, g (l.getD i d) := by
  intro l
  induction l with
  | nil => simp
  | cons x xs ih =>
      rw [List.map_cons, List.sum_cons, ih, List.length_cons,
        Finset.sum_range_succ']
      simp [add_comm]

/-- Cauchy–Schwarz for the centered sums of a paired sample. -/
theorem list_cauchy_schwarz (l : List (ℚ × ℚ)) (a b : ℚ) :
    ((l.map (fun p => (p.1 - a) * (p.2 - b))).sum) ^ 2 ≤
      ((l.map (fun p => (p.1 - a) ^ 2)).sum) *
      ((l.map (fun p => (p.2 - b) ^ 2)).sum) := by
  rw [listSum_eq_range (fun p => (p.1 - a) * (p.2 - b)) (0, 0),
    listSum_eq_range (fun p => (p.1 - a) ^ 2) (0, 0),
    listSum_eq_range (fun p => (p.2 - b) ^ 2) (0, 0)]
  exact Finset.sum_mul_sq_le_sq_mul_sq (Finset.range l.length)
    (fun i => (l.getD i (0, 0)).1 - a) (fun i => (l.getD i (0, 0)).2 - b)

theorem corrEntry_cs (df : DFrame) (c : String) :
    (corrEntry df c).cov ^ 2 ≤ (corrEntry df c).vx * (corrEntry df c).vy :=
  list_cauchy_schwarz (corrPairs df c)
    (((corrPairs df c).map Prod.fst).sum / (corrPairs df c).length)
    (((corrPairs df c).map Prod.snd).sum / (corrPairs df c).length)

theorem rSq_le_one {e : CorrEntry} (hcs : e.cov ^ 2 ≤ e.vx * e.vy)
    (hd : corrDefined e) : rSq e ≤ 1 := by
  unfold rSq
  rw [div_le_one (mul_pos hd.1 hd.2)]
  exact hcs

/-- C6 — The correlation table is sorted non-increasing in `|r|` (the key
`corrKey` is `|r|²` with NaN at the bottom, and `x ↦ x²` is strictly
monotone on `[0,∞)`, so the `corrKey` order is exactly the `|r|` order),
and every defined coefficient satisfies `|r| ≤ 1`, i.e. `r² ≤ 1` —
Cauchy–Schwarz on the centered samples. -/
theorem corr_sorted_bounded (df : DFrame) :
    (corrTable df).Pairwise (fun a b => corrKey b ≤ corrKey a) ∧
    ∀ e ∈ corrTable df, corrDefined e → rSq e ≤ 1 := by
  constructor
  · exact pairwise_sortDesc corrKey ((corrCols df).map (corrEntry df))
  · intro e he hd
    have he' : e ∈ (corrCols df).map (corrEntry df) :=
      (perm_sortDesc corrKey ((corrCols df).map (corrEntry df))).mem_iff.mp he
    rcases List.mem_map.mp he' with ⟨c, _, rfl⟩
    exact rSq_le_one (corrEntry_cs df c) hd

/-- C6 witness: on `corExDf`, the `xv` feature has `r² = 4/5 ≤ 1`. -/
theorem corr_sorted_bounded_w : rSq (corrEntry corExDf "xv") ≤ 1 :=
  (corr_sorted_bounded corExDf).2 (corrEntry corExDf "xv")
    (by decide) (by decide)

/-- C2 counterexample — the claim "zero-variance columns are excluded from
the output; no row carries a NaN coefficient" is false: on `corExDf` the
constant column `cst` (variance 0, so its Pearson coefficient is NaN)
still receives a row, placed last. -/
theorem corr_nan_excluded_cex :
    ("cst" ∈ (corrTable corExDf).map (fun e => e.feature)) ∧
    ¬ corrDefined (corrEntry corExDf "cst") ∧
    (corrTable corExDf).getLast? = some (corrEntry corExDf "cst") :=
  ⟨by decide, by decide, by decide⟩

/-- C2 amended — `corr()["label"].drop("label")` keeps every numeric
non-excluded column, zero-variance ones included; the NaN rows are not
dropped but sorted after every defined row
(`sort_values` default `na_position='last'`). -/
theorem corr_nan_included (df : DFrame) :
    (∀ c ∈ corrCols df, corrEntry df c ∈ corrTable df) ∧
    (corrTable df).Pairwise (fun a b => corrDefined b → corrDefined a) := by
  constructor
  · intro c hc
    exact (perm_sortDesc corrKey ((corrCols df).map (corrEntry df))).mem_iff.mpr
      (List.mem_map_of_mem (corrEntry df) hc)
  · have hp := pairwise_sortDesc corrKey ((corrCols df).map (corrEntry df))
    refine hp.imp ?_
    intro a b hle hdb
    by_contra hda
    simp only [corrKey, if_neg hda, if_pos hdb] at hle
    exact (WithBot.not_coe_le_bot _) hle

/-- C2 amended witness: the zero-variance column's row is in the table. -/
theorem corr_nan_included_w :
    corrEntry corExDf "cst" ∈ corrTable corExDf :=
  (corr_nan_included corExDf).1 "cst" (by decide)

/-- C10 — In the direction labelling
(`"Positive (↑ with fraud)" if x > 0 else …`), a coefficient of exactly
zero (defined, `cov = 0`) falls into the negative branch; the positive
label is only ever assigned to a strictly positive defined coefficient. -/
theorem corr_zero_direction (df : DFrame) :
    (∀ e ∈ corrTable df, corrDefined e → e.cov = 0 →
      directionCell e = "Negative (↓ with fraud)") ∧
    (∀ e ∈ corrTable df, directionCell e = "Positive (↑ with fraud)" →
      corrDefined e ∧ 0 < e.cov) := by
  constructor
  · intro e _ _ hc
    rw [directionCell, if_neg]
    rintro ⟨_, hpos⟩
    rw [hc] at hpos
    exact lt_irrefl 0 hpos
  · intro e _ hpos
    by_contra hcon
    rw [directionCell, if_neg hcon] at hpos
    exact absurd hpos (by decide)

/-- C10 witness: the feature `zf` of `corZeroDf` has `r = 0` exactly and
is labelled negative. -/
theorem corr_zero_direction_w :
    directionCell (corrEntry corZeroDf "zf") = "Negative (↓ with fraud)" :=
  (corr_zero_direction corZeroDf).1 (corrEntry corZeroDf "zf")
    (by decide) (by decide) (by decide)

/-! ## C7 – fraud-type ratio cells and the zero baseline -/

/-- C7 counterexample — the claim "a ratio against the 'normal' baseline
is omitted when the baseline value is zero, rather than producing an
undefined value in the output" is false: on `ftExDf` the baseline mean
amount is exactly 0 and the mule_ring Average-Amount ratio cell renders
the infinite division result `"infx"` — not an omitted (empty) cell. -/
theorem ft_ratio_guard_cex :
    ftColMean ftExDf "normal" "amount" = PyF.fin 0 ∧
    ftMeanRatioCell ftExDf "mule_ring" "amount" = "infx" ∧
    "infx" ≠ "" :=
  ⟨by decide, by decide, by decide⟩

/-- C7 amended — the fraud-type key-metric ratio cells carry no
zero-baseline guard: with a zero baseline mean the cell renders the float
division result (`"infx"`, `"-infx"` or `"nanx"`) instead of being
omitted.  The graph-EDA fraud/legit ratio does guard on a falsy (zero)
baseline, but the guard substitutes NaN, which is still rendered
(`"nanx"`), not omitted. -/
theorem ft_ratio_unguarded (df : DFrame) (ft col gcol : String) :
    (ftColMean df "normal" col = PyF.fin 0 →
      ftMeanRatioCell df ft col ∈ (["infx", "-infx", "nanx"] : List String)) ∧
    (graphGroupMean df gcol 0 = PyF.fin 0 →
      graphRatioCell df gcol = "nanx") := by
  constructor
  · intro h0
    rw [ftMeanRatioCell, h0]
    rcases hm : ftColMean df ft col with q | _ | _ | _
    · by_cases hq : 0 < q
      · simp [PyF.div, fmtPyF2, hq]
      · by_cases hq' : q < 0
        · simp [PyF.div, fmtPyF2, hq, hq']
        · simp [PyF.div, fmtPyF2, hq, hq']
    · simp [PyF.div, fmtPyF2]
    · simp [PyF.div, fmtPyF2]
    · simp [PyF.div, fmtPyF2]
  · intro h0
    unfold graphRatioCell
    rw [h0]
    simp [PyF.truthy, fmtPyF2]

/-- C7 amended witness: the concrete zero-baseline dataset. -/
theorem ft_ratio_unguarded_w :
    ftMeanRatioCell ftExDf "mule_ring" "amount"
      ∈ (["infx", "-infx", "nanx"] : List String) ∧
    graphRatioCell ftExDf "gcol" = "nanx" :=
  ⟨(ft_ratio_unguarded ftExDf "mule_ring" "amount" "gcol").1 (by decide),
   (ft_ratio_unguarded ftExDf "mule_ring" "amount" "gcol").2 (by decide)⟩

/-! ## C3 – the missing-value sheet's sort -/

theorem getD_reverse (l : List ℕ) (i : ℕ) (h : i < l.length) :
    l.reverse.getD i 0 = l.getD (l.length - 1 - i) 0 := by
  rw [List.getD_eq_getElem?_getD, List.getD_eq_getElem?_getD,
    List.getElem?_reverse h]

theorem map_getD_range {α : Type} (l : List α) (d : α) :
    (List.range l.length).map (fun i => l.getD i d) = l := by
  refine List.ext_getElem (by simp) ?_
  intro i h1 h2
  simp [List.getD_eq_getElem?_getD, List.getElem?_eq_getElem h2]

theorem map_sub_range (n : ℕ) :
    (List.range n).map (fun i => n - 1 - i) = (List.range n).reverse := by
  refine List.ext_getElem (by simp) ?_
  intro i h1 h2
  simp

theorem getD_range (n i : ℕ) (h : i < n) : (List.range n).getD i 0 = i := by
  rw [List.getD_eq_getElem?_getD, List.getElem?_eq_getElem (by simpa using h)]
  simp

/-! ### New development: correctness of the machine -/

/-- `getD` at a valid index is `getElem`. -/
theorem getD_eq_elem (l : List ℕ) (t : ℕ) (h : t < l.length) :
    l.getD t 0 = l[t] := by
  rw [List.getD_eq_getElem?_getD, List.getElem?_eq_getElem h]
  rfl

theorem getD_set_self (l : List ℕ) (i b : ℕ) (hi : i < l.length) :
    (l.set i b).getD i 0 = b := by
  rw [List.getD_eq_getElem?_getD, List.getElem?_set_self hi]
  rfl

theorem getD_set_ne (l : List ℕ) (i t b : ℕ) (h : i ≠ t) :
    (l.set i b).getD t 0 = l.getD t 0 := by
  rw [List.getD_eq_getElem?_getD, List.getElem?_set_ne h,
    ← List.getD_eq_getElem?_getD]

theorem count_set_succ (l : List ℕ) (i b x : ℕ) (hi : i < l.length) :
    (l.set i b).count x + (if l.getD i 0 = x then 1 else 0) =
    l.count x + (if b = x then 1 else 0) := by
  induction l generalizing i with
  | nil => simp at hi
  | cons a t ih =>
      cases i with
      | zero =>
          simp only [List.set_cons_zero, List.getD_cons_zero, List.count_cons,
            beq_iff_eq]
          omega
      | succ n =>
          simp only [List.set_cons_succ, List.getD_cons_succ, List.count_cons,
            beq_iff_eq]
          have hn : n < t.length := by
            simpa using hi
          have := ih n hn
          omega

theorem swpIdx_length (ts : List ℕ) (i j : ℕ) :
    (swpIdx ts i j).length = ts.length := by
  simp [swpIdx]

theorem swpIdx_perm (ts : List ℕ) (i j : ℕ) (hi : i < ts.length)
    (hj : j < ts.length) : List.Perm (swpIdx ts i j) ts := by
  rw [List.perm_iff_count]
  intro x
  have h1 := count_set_succ ts i (ts.getD j 0) x hi
  have h2 := count_set_succ (ts.set i (ts.getD j 0)) j (ts.getD i 0) x
    (by simpa using hj)
  by_cases hij : i = j
  · subst hij
    rw [getD_set_self ts i (ts.getD i 0) hi] at h2
    rw [swpIdx]
    omega
  · rw [getD_set_ne ts i j (ts.getD j 0) hij] at h2
    rw [swpIdx]
    omega

theorem getD_swpIdx_fst (ts : List ℕ) (i j : ℕ) (hi : i < ts.length)
    (hj : j < ts.length) : (swpIdx ts i j).getD i 0 = ts.getD j 0 := by
  by_cases hij : i = j
  · subst hij
    rw [swpIdx, getD_set_self _ _ _ (by simpa using hi)]
  · rw [swpIdx, getD_set_ne _ _ _ _ (fun h => hij h.symm),
      getD_set_self _ _ _ hi]

theorem getD_swpIdx_snd (ts : List ℕ) (i j : ℕ) (hj : j < ts.length) :
    (swpIdx ts i j).getD j 0 = ts.getD i 0 := by
  rw [swpIdx, getD_set_self _ _ _ (by simpa using hj)]

theorem getD_swpIdx_other (ts : List ℕ) (i j t : ℕ) (hti : t ≠ i)
    (htj : t ≠ j) : (swpIdx ts i j).getD t 0 = ts.getD t 0 := by
  rw [swpIdx, getD_set_ne _ _ _ _ (fun h => htj h.symm),
    getD_set_ne _ _ _ _ (fun h => hti h.symm)]

theorem vAt_swp_fst (v ts : List ℕ) (i j : ℕ) (hi : i < ts.length)
    (hj : j < ts.length) : vAt v (swpIdx ts i j) i = vAt v ts j := by
  rw [vAt, vAt, getD_swpIdx_fst ts i j hi hj]

theorem vAt_swp_snd (v ts : List ℕ) (i j : ℕ) (hj : j < ts.length) :
    vAt v (swpIdx ts i j) j = vAt v ts i := by
  rw [vAt, vAt, getD_swpIdx_snd ts i j hj]

theorem vAt_swp_other (v ts : List ℕ) (i j t : ℕ) (hti : t ≠ i)
    (htj : t ≠ j) : vAt v (swpIdx ts i j) t = vAt v ts t := by
  rw [vAt, vAt, getD_swpIdx_other ts i j t hti htj]

/-- `scanUp` finds the least position strictly above `i` whose key is not
below the pivot, provided such a stop exists within the fuel. -/
theorem scanUp_spec (v ts : List ℕ) (vp : ℕ) :
    ∀ (fuel i s : ℕ), i < s → s - i ≤ fuel → ¬ vAt v ts s < vp →
      i < scanUp v ts vp fuel i ∧ scanUp v ts vp fuel i ≤ s ∧
      ¬ vAt v ts (scanUp v ts vp fuel i) < vp ∧
      ∀ t, i < t → t < scanUp v ts vp fuel i → vAt v ts t < vp := by
  intro fuel
  induction fuel with
  | zero =>
      intro i s his hfuel _
      omega
  | succ f ih =>
      intro i s his hfuel hs
      rw [scanUp]
      by_cases h1 : vAt v ts (i + 1) < vp
      · rw [if_pos h1]
        have hi1s : i + 1 < s := by
          rcases Nat.lt_or_ge (i + 1) s with h | h
          · exact h
          · exfalso
            have he : i + 1 = s := by omega
            rw [he] at h1
            exact hs h1
        have hr := ih (i + 1) s hi1s (by omega) hs
        refine ⟨by omega, hr.2.1, hr.2.2.1, ?_⟩
        intro t hit hts
        rcases Nat.eq_or_lt_of_le (Nat.succ_le_of_lt hit) with he | hlt
        · have ht1 : t = i + 1 := by omega
          rw [ht1]
          exact h1
        · exact hr.2.2.2 t hlt hts
      · rw [if_neg h1]
        exact ⟨by omega, by omega, h1, fun t h1t h2t => by omega⟩

/-- `scanDown` finds the greatest position strictly below `j` whose key is
not above the pivot, provided such a stop exists within the fuel. -/
theorem scanDown_spec (v ts : List ℕ) (vp : ℕ) :
    ∀ (fuel j s : ℕ), s < j → j - s ≤ fuel → ¬ vp < vAt v ts s →
      scanDown v ts vp fuel j < j ∧ s ≤ scanDown v ts vp fuel j ∧
      ¬ vp < vAt v ts (scanDown v ts vp fuel j) ∧
      ∀ t, scanDown v ts vp fuel j < t → t < j → vp < vAt v ts t := by
  intro fuel
  induction fuel with
  | zero =>
      intro j s hsj hfuel _
      omega
  | succ f ih =>
      intro j s hsj hfuel hs
      rw [scanDown]
      by_cases h1 : vp < vAt v ts (j - 1)
      · rw [if_pos h1]
        have hsj1 : s < j - 1 := by
          rcases Nat.lt_or_ge s (j - 1) with h | h
          · exact h
          · exfalso
            have he : j - 1 = s := by omega
            rw [he] at h1
            exact hs h1
        have hr := ih (j - 1) s hsj1 (by omega) hs
        refine ⟨by omega, hr.2.1, hr.2.2.1, ?_⟩
        intro t hrt htj
        rcases Nat.lt_or_ge t (j - 1) with hlt | hge
        · exact hr.2.2.2 t hrt hlt
        · have he : t = j - 1 := by omega
          rw [he]
          exact h1
      · rw [if_neg h1]
        exact ⟨by omega, by omega, h1, fun t h1t h2t => by omega⟩

/-- Two equal-length lists agreeing pointwise below `k` have equal
`take k`. -/
theorem take_eq_of_getD (l2 l : List ℕ) (k : ℕ) (hlen : l2.length = l.length)
    (h : ∀ t, t < k → l2.getD t 0 = l.getD t 0) : l2.take k = l.take k := by
  refine List.ext_getElem (by simp [hlen]) ?_
  intro t h1 h2
  rw [List.getElem_take, List.getElem_take]
  have ht : t < k := by
    simp only [List.length_take] at h1
    omega
  have htl2 : t < l2.length := by
    simp only [List.length_take] at h1
    omega
  have htl : t < l.length := by omega
  have := h t ht
  rwa [getD_eq_elem l2 t htl2, getD_eq_elem l t htl] at this

/-- Two equal-length lists agreeing pointwise from `k` on have equal
`drop k`. -/
theorem drop_eq_of_getD (l2 l : List ℕ) (k : ℕ) (hlen : l2.length = l.length)
    (h : ∀ t, k ≤ t → l2.getD t 0 = l.getD t 0) : l2.drop k = l.drop k := by
  refine List.ext_getElem (by simp [hlen]) ?_
  intro t h1 h2
  rw [List.getElem_drop, List.getElem_drop]
  have htl2 : k + t < l2.length := by
    simp only [List.length_drop] at h1
    omega
  have htl : k + t < l.length := by omega
  have := h (k + t) (by omega)
  rwa [getD_eq_elem l2 (k + t) htl2, getD_eq_elem l (k + t) htl] at this

/-- Splitting a list around the segment `[pl, pr]`. -/
theorem seg_decomp (l : List ℕ) (pl pr : ℕ) (hpl : pl ≤ pr) :
    l.take pl ++ ((l.drop pl).take (pr + 1 - pl)) ++ l.drop (pr + 1) = l := by
  have hd : (l.drop pl).drop (pr + 1 - pl) = l.drop (pr + 1) := by
    rw [List.drop_drop]
    congr 1
    omega
  rw [List.append_assoc, ← hd, List.take_append_drop, List.take_append_drop]

/-- A permutation that fixes every position outside `[pl, pr]` sends each
value inside the segment to a value previously inside the segment. -/
theorem slice_transport (ts2 ts : List ℕ) (pl pr : ℕ)
    (hlen : ts2.length = ts.length) (hperm : List.Perm ts2 ts)
    (hoc : ∀ t, t < pl ∨ pr < t → ts2.getD t 0 = ts.getD t 0)
    (hpr : pr < ts.length) (hpl : pl ≤ pr) :
    ∀ p, pl ≤ p → p ≤ pr →
      ∃ t, pl ≤ t ∧ t ≤ pr ∧ ts2.getD p 0 = ts.getD t 0 := by
  have htk : ts2.take pl = ts.take pl :=
    take_eq_of_getD ts2 ts pl hlen (fun t ht => hoc t (Or.inl ht))
  have hdr : ts2.drop (pr + 1) = ts.drop (pr + 1) :=
    drop_eq_of_getD ts2 ts (pr + 1) hlen (fun t ht => hoc t (Or.inr (by omega)))
  have hmid : List.Perm ((ts2.drop pl).take (pr + 1 - pl))
      ((ts.drop pl).take (pr + 1 - pl)) := by
    have hp := hperm
    rw [← seg_decomp ts2 pl pr hpl, ← seg_decomp ts pl pr hpl, htk, hdr,
      List.append_assoc, List.append_assoc] at hp
    exact (List.perm_append_right_iff _).mp
      ((List.perm_append_left_iff _).mp hp)
  intro p hplp hppr
  have hp2 : p < ts2.length := by omega
  have hmidlen : ((ts2.drop pl).take (pr + 1 - pl)).length = pr + 1 - pl := by
    simp only [List.length_take, List.length_drop]
    omega
  have hidx : p - pl < ((ts2.drop pl).take (pr + 1 - pl)).length := by
    omega
  have hval : ts2.getD p 0 = ((ts2.drop pl).take (pr + 1 - pl))[p - pl] := by
    rw [List.getElem_take, List.getElem_drop, getD_eq_elem ts2 p hp2]
    congr 1
    omega
  have hmem : ((ts2.drop pl).take (pr + 1 - pl))[p - pl] ∈
      (ts.drop pl).take (pr + 1 - pl) :=
    hmid.mem_iff.mp (List.getElem_mem hidx)
  rcases List.mem_iff_getElem.mp hmem with ⟨idx, hidx2, hval2⟩
  have hmidlen2 : ((ts.drop pl).take (pr + 1 - pl)).length = pr + 1 - pl := by
    simp only [List.length_take, List.length_drop]
    omega
  refine ⟨pl + idx, by omega, by omega, ?_⟩
  rw [hval, ← hval2, List.getElem_take, List.getElem_drop,
    getD_eq_elem ts (pl + idx) (by omega)]

/-- The Hoare pointer-exchange loop: entered with everything at or below
`i` under the pivot and everything at or above `j` over it, it returns a
permutation of the segment, touches only `(pl, pr-1)`, and yields a
crossing point `pi` with `[pl, pi)` at most the pivot and `[pi, pr]` at
least the pivot. -/
theorem exchLoop_spec (v : List ℕ) (vp pl pr : ℕ) :
    ∀ (fuel : ℕ) (ts : List ℕ) (i j : ℕ),
      pr < ts.length → pl ≤ i → i < j → j + 1 ≤ pr →
      (∀ t, pl ≤ t → t ≤ i → vAt v ts t ≤ vp) →
      (∀ t, j ≤ t → t ≤ pr → vp ≤ vAt v ts t) →
      j - i ≤ fuel →
      (exchLoop v vp fuel ts i j).1.length = ts.length ∧
      List.Perm (exchLoop v vp fuel ts i j).1 ts ∧
      (∀ t, t ≤ pl ∨ pr - 1 ≤ t →
        (exchLoop v vp fuel ts i j).1.getD t 0 = ts.getD t 0) ∧
      pl < (exchLoop v vp fuel ts i j).2 ∧
      (exchLoop v vp fuel ts i j).2 + 1 ≤ pr ∧
      (∀ t, pl ≤ t → t < (exchLoop v vp fuel ts i j).2 →
        vAt v (exchLoop v vp fuel ts i j).1 t ≤ vp) ∧
      (∀ t, (exchLoop v vp fuel ts i j).2 ≤ t → t ≤ pr →
        vp ≤ vAt v (exchLoop v vp fuel ts i j).1 t) := by
  intro fuel
  induction fuel with
  | zero =>
      intro ts i j hpr hpli hij hjpr hE1 hE2 hfuel
      omega
  | succ f ih =>
      intro ts i j hpr hpli hij hjpr hE1 hE2 hfuel
      have heq : exchLoop v vp (f + 1) ts i j =
          (if scanDown v ts vp ts.length j ≤ scanUp v ts vp ts.length i
           then (ts, scanUp v ts vp ts.length i)
           else exchLoop v vp f
             (swpIdx ts (scanUp v ts vp ts.length i)
               (scanDown v ts vp ts.length j))
             (scanUp v ts vp ts.length i)
             (scanDown v ts vp ts.length j)) := rfl
      have hlenf : j - i ≤ ts.length := by omega
      have hsu := scanUp_spec v ts vp ts.length i j hij hlenf
        (not_lt.mpr (hE2 j le_rfl (by omega)))
      have hsd := scanDown_spec v ts vp ts.length j i hij hlenf
        (not_lt.mpr (hE1 i hpli le_rfl))
      set i' := scanUp v ts vp ts.length i with hi'
      set j' := scanDown v ts vp ts.length j with hj'
      rw [heq]
      by_cases hbr : j' ≤ i'
      · rw [if_pos hbr]
        refine ⟨rfl, List.Perm.refl ts, fun t _ => rfl, by omega, by omega,
          ?_, ?_⟩
        · intro t hplt hti'
          rcases Nat.lt_or_ge i t with hit | hti
          · exact (hsu.2.2.2 t hit hti').le
          · exact hE1 t hplt hti
        · intro t hi't htpr
          rcases Nat.eq_or_lt_of_le hi't with he | hlt
          · rw [← he]
            exact not_lt.mp hsu.2.2.1
          · rcases Nat.lt_or_ge t j with htj | hjt
            · exact (hsd.2.2.2 t (by omega) htj).le
            · exact hE2 t hjt htpr
      · rw [if_neg hbr]
        have hij' : i' < j' := not_le.mp hbr
        have hi'len : i' < ts.length := by omega
        have hj'len : j' < ts.length := by omega
        have hswlen : (swpIdx ts i' j').length = ts.length :=
          swpIdx_length ts i' j'
        have hE1s : ∀ t, pl ≤ t → t ≤ i' → vAt v (swpIdx ts i' j') t ≤ vp := by
          intro t hplt hti'
          rcases Nat.eq_or_lt_of_le hti' with he | hlt
          · rw [he, vAt_swp_fst v ts i' j' hi'len hj'len]
            exact not_lt.mp hsd.2.2.1
          · rw [vAt_swp_other v ts i' j' t (by omega) (by omega)]
            rcases Nat.lt_or_ge i t with hit | hti
            · exact (hsu.2.2.2 t hit hlt).le
            · exact hE1 t hplt hti
        have hE2s : ∀ t, j' ≤ t → t ≤ pr → vp ≤ vAt v (swpIdx ts i' j') t := by
          intro t hj't htpr
          rcases Nat.eq_or_lt_of_le hj't with he | hlt
          · rw [← he, vAt_swp_snd v ts i' j' hj'len]
            exact not_lt.mp hsu.2.2.1
          · rw [vAt_swp_other v ts i' j' t (by omega) (by omega)]
            rcases Nat.lt_or_ge t j with htj | hjt
            · exact (hsd.2.2.2 t hlt htj).le
            · exact hE2 t hjt htpr
        have hrec := ih (swpIdx ts i' j') i' j' (by omega) (by omega) hij'
          (by omega) hE1s hE2s (by omega)
        refine ⟨hrec.1.trans hswlen, hrec.2.1.trans
          (swpIdx_perm ts i' j' hi'len hj'len), ?_, hrec.2.2.2.1,
          hrec.2.2.2.2.1, hrec.2.2.2.2.2.1, hrec.2.2.2.2.2.2⟩
        intro t ht
        rw [hrec.2.2.1 t ht,
          getD_swpIdx_other ts i' j' t (by omega) (by omega)]

/-- One partition step on a large segment `[pl, pr]`: the result is a
permutation of the index array that fixes everything outside the segment
and a crossing point `pi` strictly inside it, with `[pl, pi)` at most the
key at `pi` and `(pi, pr]` at least it. -/
theorem partStep_spec (v ts : List ℕ) (pl pr : ℕ)
    (h16 : pl + 16 ≤ pr) (hpr : pr < ts.length) :
    (partStep v ts pl pr).1.length = ts.length ∧
    List.Perm (partStep v ts pl pr).1 ts ∧
    (∀ t, t < pl ∨ pr < t →
      (partStep v ts pl pr).1.getD t 0 = ts.getD t 0) ∧
    pl < (partStep v ts pl pr).2 ∧ (partStep v ts pl pr).2 < pr ∧
    (∀ t, pl ≤ t → t < (partStep v ts pl pr).2 →
      vAt v (partStep v ts pl pr).1 t ≤
        vAt v (partStep v ts pl pr).1 (partStep v ts pl pr).2) ∧
    (∀ t, (partStep v ts pl pr).2 < t → t ≤ pr →
      vAt v (partStep v ts pl pr).1 (partStep v ts pl pr).2 ≤
        vAt v (partStep v ts pl pr).1 t) := by
  set pm := pl + (pr - pl) / 2 with hpmd
  have hplpm : pl < pm := by omega
  have hpmpr1 : pm < pr - 1 := by omega
  have hpmlen : pm < ts.length := by omega
  have hpllen : pl < ts.length := by omega
  set ts1 := if vAt v ts pm < vAt v ts pl then swpIdx ts pm pl else ts
    with hts1
  have h1len : ts1.length = ts.length := by
    rw [hts1]
    by_cases hc : vAt v ts pm < vAt v ts pl
    · rw [if_pos hc, swpIdx_length]
    · rw [if_neg hc]
  have h1perm : List.Perm ts1 ts := by
    rw [hts1]
    by_cases hc : vAt v ts pm < vAt v ts pl
    · rw [if_pos hc]
      exact swpIdx_perm ts pm pl hpmlen hpllen
    · rw [if_neg hc]
  have h1out : ∀ t, t ≠ pm → t ≠ pl → ts1.getD t 0 = ts.getD t 0 := by
    intro t h1 h2
    rw [hts1]
    by_cases hc : vAt v ts pm < vAt v ts pl
    · rw [if_pos hc, getD_swpIdx_other ts pm pl t h1 h2]
    · rw [if_neg hc]
  have h1ord : vAt v ts1 pl ≤ vAt v ts1 pm := by
    rw [hts1]
    by_cases hc : vAt v ts pm < vAt v ts pl
    · rw [if_pos hc, vAt_swp_snd v ts pm pl hpllen,
        vAt_swp_fst v ts pm pl hpmlen hpllen]
      exact hc.le
    · rw [if_neg hc]
      exact not_lt.mp hc
  have hpm1len : pm < ts1.length := by omega
  have hpl1len : pl < ts1.length := by omega
  have hpr1len : pr < ts1.length := by omega
  set ts2 := if vAt v ts1 pr < vAt v ts1 pm then swpIdx ts1 pr pm else ts1
    with hts2
  have h2len : ts2.length = ts.length := by
    rw [hts2]
    by_cases hc : vAt v ts1 pr < vAt v ts1 pm
    · rw [if_pos hc, swpIdx_length]
      exact h1len
    · rw [if_neg hc]
      exact h1len
  have h2perm : List.Perm ts2 ts := by
    rw [hts2]
    by_cases hc : vAt v ts1 pr < vAt v ts1 pm
    · rw [if_pos hc]
      exact (swpIdx_perm ts1 pr pm hpr1len hpm1len).trans h1perm
    · rw [if_neg hc]
      exact h1perm
  have h2out : ∀ t, t ≠ pr → t ≠ pm → ts2.getD t 0 = ts1.getD t 0 := by
    intro t h1 h2
    rw [hts2]
    by_cases hc : vAt v ts1 pr < vAt v ts1 pm
    · rw [if_pos hc, getD_swpIdx_other ts1 pr pm t h1 h2]
    · rw [if_neg hc]
  have h2orda : vAt v ts2 pm ≤ vAt v ts2 pr := by
    rw [hts2]
    by_cases hc : vAt v ts1 pr < vAt v ts1 pm
    · rw [if_pos hc, vAt_swp_snd v ts1 pr pm hpm1len,
        vAt_swp_fst v ts1 pr pm hpr1len hpm1len]
      exact hc.le
    · rw [if_neg hc]
      exact not_lt.mp hc
  have h2ordb : vAt v ts2 pl ≤ vAt v ts2 pr := by
    rw [hts2]
    by_cases hc : vAt v ts1 pr < vAt v ts1 pm
    · rw [if_pos hc, vAt_swp_other v ts1 pr pm pl (by omega) (by omega),
        vAt_swp_fst v ts1 pr pm hpr1len hpm1len]
      exact h1ord
    · rw [if_neg hc]
      exact h1ord.trans (not_lt.mp hc)
  have hpm2len : pm < ts2.length := by omega
  have hpl2len : pl < ts2.length := by omega
  have hpr2len : pr < ts2.length := by omega
  set ts3 := if vAt v ts2 pm < vAt v ts2 pl then swpIdx ts2 pm pl else ts2
    with hts3
  have h3len : ts3.length = ts.length := by
    rw [hts3]
    by_cases hc : vAt v ts2 pm < vAt v ts2 pl
    · rw [if_pos hc, swpIdx_length]
      exact h2len
    · rw [if_neg hc]
      exact h2len
  have h3perm : List.Perm ts3 ts := by
    rw [hts3]
    by_cases hc : vAt v ts2 pm < vAt v ts2 pl
    · rw [if_pos hc]
      exact (swpIdx_perm ts2 pm pl hpm2len hpl2len).trans h2perm
    · rw [if_neg hc]
      exact h2perm
  have h3out : ∀ t, t ≠ pm → t ≠ pl → ts3.getD t 0 = ts2.getD t 0 := by
    intro t h1 h2
    rw [hts3]
    by_cases hc : vAt v ts2 pm < vAt v ts2 pl
    · rw [if_pos hc, getD_swpIdx_other ts2 pm pl t h1 h2]
    · rw [if_neg hc]
  have h3orda : vAt v ts3 pl ≤ vAt v ts3 pm := by
    rw [hts3]
    by_cases hc : vAt v ts2 pm < vAt v ts2 pl
    · rw [if_pos hc, vAt_swp_snd v ts2 pm pl hpl2len,
        vAt_swp_fst v ts2 pm pl hpm2len hpl2len]
      exact hc.le
    · rw [if_neg hc]
      exact not_lt.mp hc
  have h3ordb : vAt v ts3 pm ≤ vAt v ts3 pr := by
    rw [hts3]
    by_cases hc : vAt v ts2 pm < vAt v ts2 pl
    · rw [if_pos hc, vAt_swp_fst v ts2 pm pl hpm2len hpl2len,
        vAt_swp_other v ts2 pm pl pr (by omega) (by omega)]
      exact h2ordb
    · rw [if_neg hc]
      exact h2orda
  have hpm3len : pm < ts3.length := by omega
  have hpr13len : pr - 1 < ts3.length := by omega
  set vp := vAt v ts3 pm with hvp
  set ts4 := swpIdx ts3 pm (pr - 1) with hts4
  have h4len : ts4.length = ts.length := by
    rw [hts4, swpIdx_length]
    exact h3len
  have h4perm : List.Perm ts4 ts := by
    rw [hts4]
    exact (swpIdx_perm ts3 pm (pr - 1) hpm3len hpr13len).trans h3perm
  have h4out : ∀ t, t ≠ pm → t ≠ pr - 1 → ts4.getD t 0 = ts3.getD t 0 := by
    intro t h1 h2
    rw [hts4, getD_swpIdx_other ts3 pm (pr - 1) t h1 h2]
  have h4piv : vAt v ts4 (pr - 1) = vp := by
    rw [hts4, vAt_swp_snd v ts3 pm (pr - 1) hpr13len]
  have h4pl : vAt v ts4 pl ≤ vp := by
    rw [hts4, vAt_swp_other v ts3 pm (pr - 1) pl (by omega) (by omega)]
    exact h3orda
  have h4pr : vp ≤ vAt v ts4 pr := by
    rw [hts4, vAt_swp_other v ts3 pm (pr - 1) pr (by omega) (by omega)]
    exact h3ordb
  have hE1 : ∀ t, pl ≤ t → t ≤ pl → vAt v ts4 t ≤ vp := by
    intro t ht1 ht2
    have he : t = pl := by omega
    rw [he]
    exact h4pl
  have hE2 : ∀ t, pr - 1 ≤ t → t ≤ pr → vp ≤ vAt v ts4 t := by
    intro t ht1 ht2
    rcases Nat.eq_or_lt_of_le ht1 with he | hlt
    · rw [← he]
      rw [h4piv]
    · have he : t = pr := by omega
      rw [he]
      exact h4pr
  have hex := exchLoop_spec v vp pl pr (ts4.length + 2) ts4 pl (pr - 1)
    (by omega) le_rfl (by omega) (by omega) hE1 hE2 (by omega)
  set st1 := (exchLoop v vp (ts4.length + 2) ts4 pl (pr - 1)).1 with hst1
  set pi := (exchLoop v vp (ts4.length + 2) ts4 pl (pr - 1)).2 with hpid
  have hpeq : partStep v ts pl pr = (swpIdx st1 pi (pr - 1), pi) := rfl
  have hstlen : st1.length = ts.length := hex.1.trans h4len
  have hpigt : pl < pi := hex.2.2.2.1
  have hpile : pi + 1 ≤ pr := hex.2.2.2.2.1
  have hpilen : pi < st1.length := by omega
  have hpr1stlen : pr - 1 < st1.length := by omega
  have hpiv5 : vAt v st1 (pr - 1) = vp := by
    rw [vAt, hex.2.2.1 (pr - 1) (Or.inr le_rfl), ← vAt]
    exact h4piv
  have hrespi : vAt v (swpIdx st1 pi (pr - 1)) pi = vp := by
    rw [vAt_swp_fst v st1 pi (pr - 1) hpilen hpr1stlen]
    exact hpiv5
  rw [hpeq]
  refine ⟨?_, ?_, ?_, hpigt, by omega, ?_, ?_⟩
  · show (swpIdx st1 pi (pr - 1)).length = ts.length
    rw [swpIdx_length]
    exact hstlen
  · show List.Perm (swpIdx st1 pi (pr - 1)) ts
    exact (swpIdx_perm st1 pi (pr - 1) hpilen hpr1stlen).trans
      (hex.2.1.trans h4perm)
  · show ∀ t, t < pl ∨ pr < t →
        (swpIdx st1 pi (pr - 1)).getD t 0 = ts.getD t 0
    intro t ht
    rw [getD_swpIdx_other st1 pi (pr - 1) t (by omega) (by omega),
      hex.2.2.1 t (by omega), h4out t (by omega) (by omega),
      h3out t (by omega) (by omega), h2out t (by omega) (by omega),
      h1out t (by omega) (by omega)]
  · show ∀ t, pl ≤ t → t < pi →
        vAt v (swpIdx st1 pi (pr - 1)) t ≤
          vAt v (swpIdx st1 pi (pr - 1)) pi
    intro t ht1 ht2
    rw [hrespi, vAt_swp_other v st1 pi (pr - 1) t (by omega) (by omega)]
    exact hex.2.2.2.2.2.1 t ht1 ht2
  · show ∀ t, pi < t → t ≤ pr →
        vAt v (swpIdx st1 pi (pr - 1)) pi ≤
          vAt v (swpIdx st1 pi (pr - 1)) t
    intro t ht1 ht2
    rw [hrespi]
    by_cases he : t = pr - 1
    · rw [he, vAt_swp_snd v st1 pi (pr - 1) hpr1stlen]
      exact hex.2.2.2.2.2.2 pi le_rfl (by omega)
    · rw [vAt_swp_other v st1 pi (pr - 1) t (by omega) he]
      exact hex.2.2.2.2.2.2 t (by omega) ht2

theorem length_sortAsc {α κ : Type} [LinearOrder κ] (key : α → κ)
    (l : List α) : (sortAsc key l).length = l.length :=
  (perm_sortAsc key l).length_eq

theorem insSeg_eq (v ts : List ℕ) (pl pr : ℕ) :
    insSeg v ts pl pr =
      ts.take pl ++ sortAsc (fun i => v.getD i 0)
        ((ts.drop pl).take (pr + 1 - pl)) ++ ts.drop (pl + (pr + 1 - pl)) :=
  rfl

theorem insSeg_length (v ts : List ℕ) (pl pr : ℕ) (hpl : pl ≤ pr)
    (hpr : pr < ts.length) : (insSeg v ts pl pr).length = ts.length := by
  rw [insSeg_eq]
  simp only [List.length_append, List.length_take, length_sortAsc,
    List.length_drop]
  omega

theorem insSeg_perm (v ts : List ℕ) (pl pr : ℕ) (hpl : pl ≤ pr) :
    List.Perm (insSeg v ts pl pr) ts := by
  rw [insSeg_eq, show pl + (pr + 1 - pl) = pr + 1 by omega]
  conv_rhs => rw [← seg_decomp ts pl pr hpl]
  exact List.Perm.append
    (List.Perm.append (List.Perm.refl _) (perm_sortAsc _ _))
    (List.Perm.refl _)

theorem insSeg_outside (v ts : List ℕ) (pl pr : ℕ) (hpl : pl ≤ pr)
    (hpr : pr < ts.length) :
    ∀ t, t < pl ∨ pr < t → (insSeg v ts pl pr).getD t 0 = ts.getD t 0 := by
  intro t ht
  rw [insSeg_eq, show pl + (pr + 1 - pl) = pr + 1 by omega]
  have hA : (ts.take pl).length = pl := by
    simp only [List.length_take]
    omega
  have hB : (sortAsc (fun i => v.getD i 0)
      ((ts.drop pl).take (pr + 1 - pl))).length = pr + 1 - pl := by
    rw [length_sortAsc]
    simp only [List.length_take, List.length_drop]
    omega
  rcases ht with ht | ht
  · rw [List.getD_eq_getElem?_getD, List.getElem?_append_left (by
      simp only [List.length_append, hA, hB]
      omega), List.getElem?_append_left (by omega),
      List.getElem?_take_of_lt ht, ← List.getD_eq_getElem?_getD]
  · rw [List.getD_eq_getElem?_getD, List.getElem?_append_right (by
      simp only [List.length_append, hA, hB]
      omega), List.getElem?_drop, ← List.getD_eq_getElem?_getD]
    congr 1
    simp only [List.length_append, hA, hB]
    omega

theorem insSeg_getD_inside (v ts : List ℕ) (pl pr : ℕ) (hpl : pl ≤ pr)
    (hpr : pr < ts.length) :
    ∀ p, pl ≤ p → p ≤ pr → (insSeg v ts pl pr).getD p 0 =
      (sortAsc (fun i => v.getD i 0)
        ((ts.drop pl).take (pr + 1 - pl))).getD (p - pl) 0 := by
  intro p hp1 hp2
  rw [insSeg_eq, List.append_assoc]
  have hA : (ts.take pl).length = pl := by
    simp only [List.length_take]
    omega
  rw [List.getD_eq_getElem?_getD, List.getElem?_append_right (by omega),
    List.getElem?_append_left (by
      rw [length_sortAsc]
      simp only [hA, List.length_take, List.length_drop]
      omega), ← List.getD_eq_getElem?_getD, hA]

theorem insSeg_sorted (v ts : List ℕ) (pl pr : ℕ) (hpl : pl ≤ pr)
    (hpr : pr < ts.length) :
    ∀ p q, pl ≤ p → p < q → q ≤ pr →
      vAt v (insSeg v ts pl pr) p ≤ vAt v (insSeg v ts pl pr) q := by
  intro p q hp hpq hq
  have hB : (sortAsc (fun i => v.getD i 0)
      ((ts.drop pl).take (pr + 1 - pl))).length = pr + 1 - pl := by
    rw [length_sortAsc]
    simp only [List.length_take, List.length_drop]
    omega
  have hpB : p - pl < (sortAsc (fun i => v.getD i 0)
      ((ts.drop pl).take (pr + 1 - pl))).length := by omega
  have hqB : q - pl < (sortAsc (fun i => v.getD i 0)
      ((ts.drop pl).take (pr + 1 - pl))).length := by omega
  have hpw := pairwise_sortAsc (fun i => v.getD i 0)
    ((ts.drop pl).take (pr + 1 - pl))
  rw [List.pairwise_iff_getElem] at hpw
  have hord := hpw (p - pl) (q - pl) hpB hqB (by omega)
  rw [vAt, vAt, insSeg_getD_inside v ts pl pr hpl hpr p hp (by omega),
    insSeg_getD_inside v ts pl pr hpl hpr q (by omega) hq,
    getD_eq_elem _ _ hpB, getD_eq_elem _ _ hqB]
  exact hord

/-- The outer-loop invariant: every pending segment is a well-formed
in-bounds interval, pending segments are pairwise disjoint, and any two
positions not covered by a common pending segment are already in
ascending key order. -/
def segsOK (v ts : List ℕ) (segs : List (ℕ × ℕ)) : Prop :=
  (∀ s ∈ segs, s.1 ≤ s.2 ∧ s.2 < ts.length) ∧
  segs.Pairwise (fun s u => s.2 < u.1 ∨ u.2 < s.1) ∧
  (∀ p q, p < q → q < ts.length →
    (∀ s ∈ segs, ¬ (s.1 ≤ p ∧ q ≤ s.2)) → vAt v ts p ≤ vAt v ts q)

/-- The fuel measure of the pending segments: one outer-loop iteration
strictly decreases it. -/
def segFuel (segs : List (ℕ × ℕ)) : ℕ :=
  2 * (segs.map (fun s => s.2 + 1 - s.1)).sum + segs.length

/-- An update that permutes the array only inside the current segment
`[pl, pr]` preserves the ordering of every pair not jointly inside it
(and not jointly inside a pending stack segment). -/
theorem sorted_outside_step (v ts ts2 : List ℕ) (pl pr : ℕ)
    (stack : List (ℕ × ℕ))
    (hdisj : ∀ s ∈ stack, pr < s.1 ∨ s.2 < pl)
    (hout : ∀ p q, p < q → q < ts.length →
      (∀ s ∈ (pl, pr) :: stack, ¬ (s.1 ≤ p ∧ q ≤ s.2)) →
      vAt v ts p ≤ vAt v ts q)
    (hlen : ts2.length = ts.length) (hperm : List.Perm ts2 ts)
    (hoc : ∀ t, t < pl ∨ pr < t → ts2.getD t 0 = ts.getD t 0)
    (hpr : pr < ts.length) (hpl : pl ≤ pr) :
    ∀ p q, p < q → q < ts.length → ¬ (pl ≤ p ∧ q ≤ pr) →
      (∀ s ∈ stack, ¬ (s.1 ≤ p ∧ q ≤ s.2)) →
      vAt v ts2 p ≤ vAt v ts2 q := by
  intro p q hpq hq hnotS hnstk
  by_cases hpin : pl ≤ p ∧ p ≤ pr
  · have hqout : pr < q := by
      by_contra hqle
      exact hnotS ⟨hpin.1, by omega⟩
    obtain ⟨t, htpl, htpr, htv⟩ := slice_transport ts2 ts pl pr hlen hperm
      hoc hpr hpl p hpin.1 hpin.2
    have hq2 : vAt v ts2 q = vAt v ts q := by
      simp only [vAt]
      rw [hoc q (Or.inr hqout)]
    have hp2 : vAt v ts2 p = vAt v ts t := by
      simp only [vAt]
      rw [htv]
    rw [hp2, hq2]
    apply hout t q (by omega) hq
    intro s hs
    rcases List.mem_cons.mp hs with rfl | hs2
    · intro hcon
      omega
    · have := hdisj s hs2
      intro hcon
      omega
  · by_cases hqin : pl ≤ q ∧ q ≤ pr
    · have hpout : p < pl := by
        by_contra hple
        exact hpin ⟨by omega, by omega⟩
      obtain ⟨t, htpl, htpr, htv⟩ := slice_transport ts2 ts pl pr hlen hperm
        hoc hpr hpl q hqin.1 hqin.2
      have hp2 : vAt v ts2 p = vAt v ts p := by
        simp only [vAt]
        rw [hoc p (Or.inl hpout)]
      have hq2 : vAt v ts2 q = vAt v ts t := by
        simp only [vAt]
        rw [htv]
      rw [hp2, hq2]
      apply hout p t (by omega) (by omega)
      intro s hs
      rcases List.mem_cons.mp hs with rfl | hs2
      · intro hcon
        omega
      · have := hdisj s hs2
        intro hcon
        omega
    · have hp2 : vAt v ts2 p = vAt v ts p := by
        simp only [vAt]
        rw [hoc p (by omega)]
      have hq2 : vAt v ts2 q = vAt v ts q := by
        simp only [vAt]
        rw [hoc q (by omega)]
      rw [hp2, hq2]
      apply hout p q hpq hq
      intro s hs
      rcases List.mem_cons.mp hs with rfl | hs2
      · exact hnotS
      · exact hnstk s hs2

/-- Insertion-sorting the current segment discharges it from the pending
list while preserving the invariant. -/
theorem segsOK_insSeg (v ts : List ℕ) (pl pr : ℕ) (stack : List (ℕ × ℕ))
    (h : segsOK v ts ((pl, pr) :: stack)) :
    segsOK v (insSeg v ts pl pr) stack := by
  obtain ⟨hwf, hdisj, hout⟩ := h
  have hh := hwf (pl, pr) (List.mem_cons_self _ _)
  have hpl : pl ≤ pr := hh.1
  have hpr : pr < ts.length := hh.2
  have hlen := insSeg_length v ts pl pr hpl hpr
  refine ⟨?_, (List.pairwise_cons.mp hdisj).2, ?_⟩
  · intro s hs
    rw [hlen]
    exact hwf s (List.mem_cons_of_mem _ hs)
  · intro p q hpq hq hex
    rw [hlen] at hq
    by_cases hin : pl ≤ p ∧ q ≤ pr
    · exact insSeg_sorted v ts pl pr hpl hpr p q hin.1 hpq (by omega)
    · exact sorted_outside_step v ts (insSeg v ts pl pr) pl pr stack
        (fun s hs => (List.pairwise_cons.mp hdisj).1 s hs) hout hlen
        (insSeg_perm v ts pl pr hpl) (insSeg_outside v ts pl pr hpl hpr)
        hpr hpl p q hpq hq hin hex

/-- With no pending segments the invariant is full sortedness. -/
theorem segsOK_nil_sorted (v res : List ℕ) (h : segsOK v res []) :
    res.Pairwise (fun a b => v.getD a 0 ≤ v.getD b 0) := by
  obtain ⟨_, _, hout⟩ := h
  rw [List.pairwise_iff_getElem]
  intro a b ha hb hab
  have := hout a b hab hb (fun s hs => absurd hs (List.not_mem_nil s))
  rwa [vAt, vAt, getD_eq_elem res a ha, getD_eq_elem res b hb] at this

/-- The two halves produced by a partition may be re-ordered (the machine
continues with the smaller and stacks the larger). -/
theorem segsOK_swap (v ts : List ℕ) (a b : ℕ × ℕ) (stack : List (ℕ × ℕ))
    (h : segsOK v ts (a :: b :: stack)) : segsOK v ts (b :: a :: stack) := by
  obtain ⟨hwf, hdisj, hout⟩ := h
  obtain ⟨ha, hd2⟩ := List.pairwise_cons.mp hdisj
  obtain ⟨hb, hd3⟩ := List.pairwise_cons.mp hd2
  refine ⟨?_, ?_, ?_⟩
  · intro s hs
    apply hwf
    simp only [List.mem_cons] at hs ⊢
    tauto
  · refine List.pairwise_cons.mpr ⟨?_, List.pairwise_cons.mpr ⟨?_, hd3⟩⟩
    · intro u hu
      rcases List.mem_cons.mp hu with rfl | hu2
      · have := ha b (List.mem_cons_self _ _)
        tauto
      · exact hb u hu2
    · intro u hu
      exact ha u (List.mem_cons_of_mem _ hu)
  · intro p q hpq hq hex
    apply hout p q hpq hq
    intro s hs
    apply hex
    simp only [List.mem_cons] at hs ⊢
    tauto

/-- A partition step replaces the current segment by its two halves
around the crossing point, preserving the invariant. -/
theorem segsOK_part (v ts : List ℕ) (pl pr : ℕ) (stack : List (ℕ × ℕ))
    (h : segsOK v ts ((pl, pr) :: stack)) (h16 : pl + 16 ≤ pr) :
    segsOK v (partStep v ts pl pr).1
      ((pl, (partStep v ts pl pr).2 - 1) ::
        ((partStep v ts pl pr).2 + 1, pr) :: stack) ∧
    pl < (partStep v ts pl pr).2 ∧ (partStep v ts pl pr).2 < pr ∧
    List.Perm (partStep v ts pl pr).1 ts := by
  obtain ⟨hwf, hdisj, hout⟩ := h
  have hh := hwf (pl, pr) (List.mem_cons_self _ _)
  have hpr : pr < ts.length := hh.2
  obtain ⟨hlen, hperm, hoc, hpigt, hpilt, hQ4, hQ5⟩ :=
    partStep_spec v ts pl pr h16 hpr
  have hdisjh : ∀ s ∈ stack, pr < s.1 ∨ s.2 < pl :=
    fun s hs => (List.pairwise_cons.mp hdisj).1 s hs
  refine ⟨⟨?_, ?_, ?_⟩, hpigt, hpilt, hperm⟩
  · intro s hs
    rw [hlen]
    rcases List.mem_cons.mp hs with rfl | hs2
    · exact ⟨by omega, by omega⟩
    rcases List.mem_cons.mp hs2 with rfl | hs3
    · exact ⟨by omega, by omega⟩
    · exact hwf s (List.mem_cons_of_mem _ hs3)
  · refine List.pairwise_cons.mpr ⟨?_, List.pairwise_cons.mpr ⟨?_,
      (List.pairwise_cons.mp hdisj).2⟩⟩
    · intro u hu
      rcases List.mem_cons.mp hu with rfl | hu2
      · show (partStep v ts pl pr).2 - 1 < (partStep v ts pl pr).2 + 1 ∨
          pr < pl
        left
        omega
      · have := hdisjh u hu2
        show (partStep v ts pl pr).2 - 1 < u.1 ∨ u.2 < pl
        rcases this with hcase | hcase
        · left
          omega
        · right
          exact hcase
    · intro u hu
      have := hdisjh u hu
      show pr < u.1 ∨ u.2 < (partStep v ts pl pr).2 + 1
      rcases this with hcase | hcase
      · left
        exact hcase
      · right
        omega
  · intro p q hpq hq hex
    rw [hlen] at hq
    have hexL := hex (pl, (partStep v ts pl pr).2 - 1)
      (List.mem_cons_self _ _)
    have hexR := hex ((partStep v ts pl pr).2 + 1, pr)
      (List.mem_cons_of_mem _ (List.mem_cons_self _ _))
    have hexS : ∀ s ∈ stack, ¬ (s.1 ≤ p ∧ q ≤ s.2) := fun s hs =>
      hex s (List.mem_cons_of_mem _ (List.mem_cons_of_mem _ hs))
    by_cases hin : pl ≤ p ∧ q ≤ pr
    · have hqge : (partStep v ts pl pr).2 ≤ q := by
        by_contra hc
        exact hexL ⟨hin.1, by omega⟩
      have hple : p ≤ (partStep v ts pl pr).2 := by
        by_contra hc
        exact hexR ⟨by omega, hin.2⟩
      rcases Nat.lt_or_ge p (partStep v ts pl pr).2 with hppi | hppi
      · rcases Nat.eq_or_lt_of_le hqge with he | hqgt
        · rw [← he]
          exact hQ4 p hin.1 hppi
        · exact (hQ4 p hin.1 hppi).trans (hQ5 q hqgt hin.2)
      · have he : p = (partStep v ts pl pr).2 := by omega
        rw [he]
        exact hQ5 q (by omega) hin.2
    · exact sorted_outside_step v ts (partStep v ts pl pr).1 pl pr stack
        hdisjh hout hlen hperm hoc hpr (by omega) p q hpq hq hin hexS

/-- Correctness of the `aquicksort` outer loop: under the segment
invariant and with fuel at least the measure, the result is a sorted
permutation of the index array. -/
theorem qsLoop_spec (v : List ℕ) :
    ∀ (fuel : ℕ) (ts : List ℕ) (pl pr : ℕ) (stack : List (ℕ × ℕ))
      (depth : ℤ), segsOK v ts ((pl, pr) :: stack) →
      segFuel ((pl, pr) :: stack) ≤ fuel →
      List.Perm (qsLoop v fuel ts pl pr stack depth) ts ∧
      (qsLoop v fuel ts pl pr stack depth).Pairwise
        (fun a b => v.getD a 0 ≤ v.getD b 0) := by
  intro fuel
  induction fuel with
  | zero =>
      intro ts pl pr stack depth hok hf
      exfalso
      simp only [segFuel, List.length_cons] at hf
      omega
  | succ f ih =>
      intro ts pl pr stack depth hok hf
      have hh := hok.1 (pl, pr) (List.mem_cons_self _ _)
      have hpl : pl ≤ pr := hh.1
      have hpr : pr < ts.length := hh.2
      by_cases hbig : 15 < pr - pl
      · by_cases hdep : depth < 0
        · cases stack with
          | nil =>
              have heq : qsLoop v (f + 1) ts pl pr [] depth =
                  insSeg v ts pl pr := by
                rw [qsLoop, if_pos hbig, if_pos hdep]
              rw [heq]
              exact ⟨insSeg_perm v ts pl pr hpl,
                segsOK_nil_sorted v _ (segsOK_insSeg v ts pl pr [] hok)⟩
          | cons s2 st =>
              obtain ⟨pl2, pr2⟩ := s2
              have heq : qsLoop v (f + 1) ts pl pr ((pl2, pr2) :: st) depth =
                  qsLoop v f (insSeg v ts pl pr) pl2 pr2 st (depth - 1) := by
                rw [qsLoop, if_pos hbig, if_pos hdep]
              rw [heq]
              have hf2 : segFuel ((pl2, pr2) :: st) ≤ f := by
                simp only [segFuel, List.map_cons, List.sum_cons,
                  List.length_cons] at hf ⊢
                omega
              have hr := ih (insSeg v ts pl pr) pl2 pr2 st (depth - 1)
                (segsOK_insSeg v ts pl pr ((pl2, pr2) :: st) hok) hf2
              exact ⟨hr.1.trans (insSeg_perm v ts pl pr hpl), hr.2⟩
        · have h16 : pl + 16 ≤ pr := by omega
          obtain ⟨hok2, hpigt, hpilt, hperm2⟩ :=
            segsOK_part v ts pl pr stack hok h16
          have hf2 : segFuel ((pl, (partStep v ts pl pr).2 - 1) ::
              ((partStep v ts pl pr).2 + 1, pr) :: stack) ≤ f := by
            simp only [segFuel, List.map_cons, List.sum_cons,
              List.length_cons] at hf ⊢
            omega
          by_cases hcmp : (partStep v ts pl pr).2 - pl <
              pr - (partStep v ts pl pr).2
          · have heq : qsLoop v (f + 1) ts pl pr stack depth =
                qsLoop v f (partStep v ts pl pr).1 pl
                  ((partStep v ts pl pr).2 - 1)
                  (((partStep v ts pl pr).2 + 1, pr) :: stack)
                  (depth - 1) := by
              rw [qsLoop, if_pos hbig, if_neg hdep]
              dsimp only
              rw [if_pos hcmp]
            rw [heq]
            have hr := ih (partStep v ts pl pr).1 pl
              ((partStep v ts pl pr).2 - 1)
              (((partStep v ts pl pr).2 + 1, pr) :: stack) (depth - 1)
              hok2 hf2
            exact ⟨hr.1.trans hperm2, hr.2⟩
          · have heq : qsLoop v (f + 1) ts pl pr stack depth =
                qsLoop v f (partStep v ts pl pr).1
                  ((partStep v ts pl pr).2 + 1) pr
                  ((pl, (partStep v ts pl pr).2 - 1) :: stack)
                  (depth - 1) := by
              rw [qsLoop, if_pos hbig, if_neg hdep]
              dsimp only
              rw [if_neg hcmp]
            rw [heq]
            have hok3 := segsOK_swap v (partStep v ts pl pr).1 _ _ stack hok2
            have hf3 : segFuel (((partStep v ts pl pr).2 + 1, pr) ::
                (pl, (partStep v ts pl pr).2 - 1) :: stack) ≤ f := by
              simp only [segFuel, List.map_cons, List.sum_cons,
                List.length_cons] at hf ⊢
              omega
            have hr := ih (partStep v ts pl pr).1
              ((partStep v ts pl pr).2 + 1) pr
              ((pl, (partStep v ts pl pr).2 - 1) :: stack) (depth - 1)
              hok3 hf3
            exact ⟨hr.1.trans hperm2, hr.2⟩
      · cases stack with
        | nil =>
            have heq : qsLoop v (f + 1) ts pl pr [] depth =
                insSeg v ts pl pr := by
              rw [qsLoop, if_neg hbig]
            rw [heq]
            exact ⟨insSeg_perm v ts pl pr hpl,
              segsOK_nil_sorted v _ (segsOK_insSeg v ts pl pr [] hok)⟩
        | cons s2 st =>
            obtain ⟨pl2, pr2⟩ := s2
            have heq : qsLoop v (f + 1) ts pl pr ((pl2, pr2) :: st) depth =
                qsLoop v f (insSeg v ts pl pr) pl2 pr2 st depth := by
              rw [qsLoop, if_neg hbig]
            rw [heq]
            have hf2 : segFuel ((pl2, pr2) :: st) ≤ f := by
              simp only [segFuel, List.map_cons, List.sum_cons,
                List.length_cons] at hf ⊢
              omega
            have hr := ih (insSeg v ts pl pr) pl2 pr2 st depth
              (segsOK_insSeg v ts pl pr ((pl2, pr2) :: st) hok) hf2
            exact ⟨hr.1.trans (insSeg_perm v ts pl pr hpl), hr.2⟩

theorem aquicksortIdx_eq (v : List ℕ) :
    aquicksortIdx v =
      if v.length ≤ 16 then
        sortAsc (fun i => v.getD i 0) (List.range v.length)
      else qsLoop v (4 * v.length + 16) (List.range v.length) 0
        (v.length - 1) [] (2 * Nat.log2 v.length) := rfl

theorem aquicksortIdx_init (v : List ℕ) (h : ¬ v.length ≤ 16) :
    segsOK v (List.range v.length) [(0, v.length - 1)] ∧
    segFuel [(0, v.length - 1)] ≤ 4 * v.length + 16 := by
  constructor
  · refine ⟨?_, ?_, ?_⟩
    · intro s hs
      rcases List.mem_cons.mp hs with rfl | hs2
      · refine ⟨Nat.zero_le _, ?_⟩
        simp only [List.length_range]
        omega
      · exact absurd hs2 (List.not_mem_nil s)
    · simp
    · intro p q hpq hq hex
      exfalso
      apply hex (0, v.length - 1) (List.mem_cons_self _ _)
      simp only [List.length_range] at hq
      exact ⟨Nat.zero_le _, by omega⟩
  · simp only [segFuel, List.map_cons, List.map_nil, List.sum_cons,
      List.sum_nil, List.length_cons, List.length_nil]
    omega

/-- `np.argsort` produces a permutation of the index range, for every
input. -/
theorem aquicksortIdx_perm (v : List ℕ) :
    List.Perm (aquicksortIdx v) (List.range v.length) := by
  rw [aquicksortIdx_eq]
  by_cases h : v.length ≤ 16
  · rw [if_pos h]
    exact perm_sortAsc _ _
  · rw [if_neg h]
    obtain ⟨hinv, hfc⟩ := aquicksortIdx_init v h
    exact (qsLoop_spec v (4 * v.length + 16) (List.range v.length) 0
      (v.length - 1) [] (2 * Nat.log2 v.length) hinv hfc).1

/-- `np.argsort` sorts the keys ascending, for every input. -/
theorem aquicksortIdx_sorted (v : List ℕ) :
    (aquicksortIdx v).Pairwise (fun a b => v.getD a 0 ≤ v.getD b 0) := by
  rw [aquicksortIdx_eq]
  by_cases h : v.length ≤ 16
  · rw [if_pos h]
    exact pairwise_sortAsc _ _
  · rw [if_neg h]
    obtain ⟨hinv, hfc⟩ := aquicksortIdx_init v h
    exact (qsLoop_spec v (4 * v.length + 16) (List.range v.length) 0
      (v.length - 1) [] (2 * Nat.log2 v.length) hinv hfc).2

theorem aquicksortIdx_small (v : List ℕ) (h : v.length ≤ 16) :
    aquicksortIdx v = sortAsc (fun i => v.getD i 0) (List.range v.length) :=
  by rw [aquicksortIdx_eq, if_pos h]


/-- pandas' descending `nargsort`: a permutation of the index range,
descending in the keys for every input, and stable on ties whenever the
whole array stays in numpy's insertion-sort regime (at most 16 keys). -/
theorem nargsortDesc_spec (keys : List ℕ) :
    List.Perm (nargsortDesc keys) (List.range keys.length) ∧
    (nargsortDesc keys).Pairwise
      (fun i j => keys.getD j 0 ≤ keys.getD i 0) ∧
    (keys.length ≤ 16 → ∀ k : ℕ,
      (nargsortDesc keys).filter (fun i => decide (keys.getD i 0 = k)) =
      (List.range keys.length).filter
        (fun i => decide (keys.getD i 0 = k))) := by
  have hrevlen : keys.reverse.length = keys.length := by simp
  have hnd : nargsortDesc keys =
      ((aquicksortIdx keys.reverse).map
        (fun i => (List.range keys.length).reverse.getD i 0)).reverse := rfl
  set n := keys.length with hndef
  set rk : ℕ → ℕ := fun i => keys.reverse.getD i 0 with hrkdef
  set p := aquicksortIdx keys.reverse with hpdef
  have hperm : List.Perm p (List.range n) := by
    have h := aquicksortIdx_perm keys.reverse
    rwa [hrevlen] at h
  have hsorted : p.Pairwise (fun i j => rk i ≤ rk j) :=
    aquicksortIdx_sorted keys.reverse
  have hmem : ∀ i ∈ p, i < n := fun i hi =>
    List.mem_range.mp (hperm.mem_iff.mp hi)
  have hrk : ∀ i, i < n → rk i = keys.getD (n - 1 - i) 0 := by
    intro i hi
    rw [hrkdef]
    exact getD_reverse keys i hi
  have hσ : ∀ i, i < n →
      (List.range n).reverse.getD i 0 = n - 1 - i := by
    intro i hi
    rw [getD_reverse (List.range n) i (by simpa using hi)]
    simp only [List.length_range]
    exact getD_range n (n - 1 - i) (by omega)
  have h1 : p.map (fun i => (List.range n).reverse.getD i 0) =
      p.map (fun i => n - 1 - i) :=
    List.map_congr_left (fun i hi => hσ i (hmem i hi))
  refine ⟨?_, ?_, ?_⟩
  · rw [hnd, h1]
    refine (List.reverse_perm _).trans ?_
    have hmd : List.Perm (p.map (fun i => n - 1 - i))
        ((List.range n).reverse) := by
      rw [← map_sub_range n]
      exact hperm.map _
    exact hmd.trans (List.reverse_perm _)
  · rw [hnd]
    rw [List.pairwise_reverse, List.pairwise_map]
    refine hsorted.imp_of_mem ?_
    intro a b ha hb hle
    rw [hσ a (hmem a ha), hσ b (hmem b hb), ← hrk a (hmem a ha),
      ← hrk b (hmem b hb)]
    exact hle
  · intro h16 k
    have hq : p = sortAsc rk (List.range n) := by
      rw [hpdef, aquicksortIdx_small keys.reverse (by rwa [hrevlen]),
        hrevlen]
    rw [hnd, h1, List.filter_reverse, List.filter_map]
    have hc1 : p.filter
        ((fun i => decide (keys.getD i 0 = k)) ∘ (fun i => n - 1 - i)) =
        p.filter (fun i => decide (rk i = k)) := by
      refine List.filter_congr ?_
      intro i hi
      simp only [Function.comp]
      rw [← hrk i (hmem i hi)]
    have hstab := filter_sortAsc rk k (List.range n)
    have hc2 : (List.range n).filter (fun i => decide (rk i = k)) =
        (List.range n).filter
          ((fun i => decide (keys.getD i 0 = k)) ∘ (fun i => n - 1 - i)) := by
      refine List.filter_congr ?_
      intro i hi
      simp only [Function.comp]
      rw [hrk i (List.mem_range.mp hi)]
    rw [hc1, hq]
    rw [show (sortAsc rk (List.range n)).filter
        (fun i => decide (rk i = k)) =
        (List.range n).filter (fun i => decide (rk i = k)) from hstab]
    rw [hc2, ← List.filter_map, map_sub_range, List.filter_reverse,
      List.reverse_reverse]

/-- C3 counterexample — on seventeen columns (one more than numpy's
insertion-sort regime) with all null counts tied at 0, the claim "ties
preserve the original dataset column order (a stable sort)" demands the
original order `c00 … c16`; the introsort's first partition permutes the
tied rows instead. -/
theorem missing_stable_cex :
    (missingTable mvExDf17).map (fun r => r.col) =
      ["c00", "c09", "c15", "c14", "c13", "c12", "c11", "c10", "c08",
       "c01", "c07", "c06", "c05", "c04", "c03", "c02", "c16"] ∧
    (missingTable mvExDf17).map (fun r => r.col) ≠ mvExDf17.cols :=
  ⟨by decide, by decide⟩

/-- C3 amended — the Missing-Value Profiler emits exactly one row per
dataset column (zero-null columns included, with count 0), sorted
descending by null count, for every dataset; ties additionally keep the
original dataset column order whenever the dataset has at most 16 columns
(numpy's insertion-sort regime), while beyond 16 columns the unstable
introsort forfeits that stability (see the counterexample). -/
theorem missing_table_spec (df : DFrame) :
    List.Perm ((missingTable df).map (fun r => r.col)) df.cols ∧
    (missingTable df).Pairwise (fun r1 r2 => r2.nullCnt ≤ r1.nullCnt) ∧
    (df.cols.length ≤ 16 → ∀ k : ℕ,
      (((missingTable df).filter (fun r => decide (r.nullCnt = k))).map
        (fun r => r.col)) =
      (((unsortedMissing df).filter (fun r => decide (r.nullCnt = k))).map
        (fun r => r.col))) := by
  have hklen : (missKeys df).length = df.cols.length := by simp [missKeys]
  have hspec := nargsortDesc_spec (missKeys df)
  rw [hklen] at hspec
  set ord := nargsortDesc (missKeys df) with horddef
  refine ⟨?_, ?_, ?_⟩
  · show List.Perm ((ord.map (missRowAt df)).map (fun r => r.col)) df.cols
    rw [List.map_map]
    conv_rhs => rw [← map_getD_range df.cols ""]
    exact hspec.1.map _
  · show (ord.map (missRowAt df)).Pairwise
      (fun r1 r2 => r2.nullCnt ≤ r1.nullCnt)
    rw [List.pairwise_map]
    exact hspec.2.1.imp (fun h => h)
  · intro h16 k
    show (((ord.map (missRowAt df)).filter
        (fun r => decide (r.nullCnt = k))).map (fun r => r.col)) =
      ((((List.range df.cols.length).map (missRowAt df)).filter
        (fun r => decide (r.nullCnt = k))).map (fun r => r.col))
    rw [List.filter_map, List.filter_map, List.map_map, List.map_map]
    have hpred : ∀ l : List ℕ,
        l.filter ((fun r => decide (r.nullCnt = k)) ∘ missRowAt df) =
        l.filter (fun i => decide ((missKeys df).getD i 0 = k)) :=
      fun l => List.filter_congr (fun i _ => rfl)
    rw [hpred, hpred, hspec.2.2 h16 k]

/-- C3 amended witness: three columns with null counts 0, 2, 2 — the tied
columns `b`, `c` stay in original order and the table is a permutation of
the columns. -/
theorem missing_table_spec_w :
    (((missingTable mvExDf3).filter (fun r => decide (r.nullCnt = 2))).map
      (fun r => r.col)) =
    (((unsortedMissing mvExDf3).filter (fun r => decide (r.nullCnt = 2))).map
      (fun r => r.col)) ∧
    List.Perm ((missingTable mvExDf3).map (fun r => r.col)) mvExDf3.cols :=
  ⟨(missing_table_spec mvExDf3).2.2 (by decide) 2,
   (missing_table_spec mvExDf3).1⟩
